import Mathlib

/-!
Verification development for the frame-transfer engine, ring-buffer access
protocol and channel-area format kernel of `src/pcm/pcm.c` (alsa-lib).

The C code is embedded shallowly:

* The transfer loops `snd_pcm_write_areas` / `snd_pcm_read_areas` are embedded
  as fuel-indexed recursive functions, parametric over the fast-op vtable
  (`pcm->fast_ops`, an external collaborator) represented as a record of
  functions over an abstract handle state `σ`.  The loops additionally emit a
  ghost trace of the `snd_pcm_start` invocations they perform; the trace is
  output-only instrumentation and does not influence control flow.
* The mmap begin/commit protocol is embedded over a concrete handle record.
* The channel-area silence/copy kernel is embedded over a byte-addressed
  memory modelled as `Nat → Nat` (values read/written modulo 256).

Functions of this repository that are not part of `src/pcm/pcm.c` (they live
in `pcm_local.h` / `pcm_misc.c`, absent from the sources provided) are
modelled from the specification; each such definition carries a doc comment
starting with `Modelled from the spec:`.
-/

set_option maxHeartbeats 1600000

namespace AlsaPcm

/-- PCM device operating states, mirroring `snd_pcm_state_t` as used by
`pcm.c` (`OPEN, SETUP, PREPARED, RUNNING, XRUN, DRAINING, PAUSED`). -/
inductive PcmState where
  | opened
  | setup
  | prepared
  | running
  | xrun
  | draining
  | paused
  deriving DecidableEq

/-- Linux errno value `EPIPE` (underrun/overrun). -/
def EPIPE : Int := 32

/-- Linux errno value `EBADFD` (bad state). -/
def EBADFD : Int := 77

/-- Linux errno value `EAGAIN` (would block). -/
def EAGAIN : Int := 11

/-- Linux errno value `EINVAL` (invalid argument). -/
def EINVAL : Int := 22

/-- Ghost trace events recording the `snd_pcm_start` invocations made by the
transfer loops.  `started hwAvail res` is the start issued at the bottom of
the write loop (with the hardware-available count `buffer_size - avail +
frames` computed there); `startedEntry res` is the start issued at the head
of `snd_pcm_read_areas`.  `res` is the value returned by `snd_pcm_start`. -/
inductive Event where
  | started (hwAvail : Int) (res : Int)
  | startedEntry (res : Int)
  deriving DecidableEq

/-- The fast-op vtable of a PCM handle together with the handle fields read by
the transfer loops (`pcm->mode & SND_PCM_NONBLOCK`, `pcm->xfer_align`,
`pcm->start_threshold`, `pcm->buffer_size`).  In `pcm.c` the four operations
dispatch through `pcm->fast_ops` to an external collaborator; here they are
abstract functions over an abstract handle state `σ`. -/
structure PcmFastOps (σ : Type) where
  state : σ → PcmState
  avail_update : σ → Int × σ
  start : σ → Int × σ
  wait : σ → Int × σ
  nonblock : Bool
  xfer_align : Nat
  start_threshold : Nat
  buffer_size : Nat

/-- Caller-supplied transfer callback (`snd_pcm_xfer_areas_func_t`): given the
handle state, the current offset and a frame count, moves the frames and
returns the count actually moved (negative on error) with the new state. -/
def XferFunc (σ : Type) : Type := σ → Nat → Nat → Int × σ

/-- Outcome of one pass of a transfer-loop body: `done` leaves the loop
(`goto _end` / `break`), `cont` goes round again with updated locals. -/
inductive StepRes (σ : Type) where
  | done (err : Int) (xfer : Nat) (s : σ) (tr : List Event)
  | cont (st : PcmState) (offset size xfer : Nat) (err : Int) (s : σ) (tr : List Event)

/-- Ghost trace of a loop-body outcome. -/
def StepRes.trace : StepRes σ → List Event
  | .done _ _ _ tr => tr
  | .cont _ _ _ _ _ _ tr => tr

/-- The alignment rounding `if (v > align) v -= v % align;` applied by the
transfer engine to both the requested size and the available count. -/
def alignSize (v xa : Nat) : Nat :=
  if xa < v then v - v % xa else v

/-- One pass of the `while (size > 0)` body of `snd_pcm_write_areas`
(pcm.c:4324-4382), beginning at the `_again` label.  `st` is the cached local
`state` variable (note: it is not refreshed after `snd_pcm_start`). -/
def writeStep (ops : PcmFastOps σ) (func : XferFunc σ) (st : PcmState)
    (offset size xfer : Nat) (s : σ) : StepRes σ :=
  let p := ops.avail_update s
  let avail := p.1
  let s1 := p.2
  if avail < 0 then .done (-EPIPE) xfer s1 []
  else if st = .prepared ∧ avail = 0 then .done (-EPIPE) xfer s1 []
  else if st ≠ .prepared ∧ (avail = 0 ∨ (ops.xfer_align ≤ size ∧ avail < (ops.xfer_align : Int))) then
    if ops.nonblock then .done (-EAGAIN) xfer s1 []
    else
      let q := ops.wait s1
      if q.1 < 0 then .done q.1 xfer q.2 []
      else .cont (ops.state q.2) offset size xfer q.1 q.2 []
  else
    let availN := avail.toNat
    let avail2 := alignSize availN ops.xfer_align
    let frames := min size avail2
    let r := func s1 offset frames
    if r.1 < 0 then .done r.1 xfer r.2 []
    else if st = .prepared then
      let hwAvail : Int := (ops.buffer_size : Int) - (avail2 : Int) + (frames : Int)
      if (ops.start_threshold : Int) ≤ hwAvail then
        let r2 := ops.start r.2
        if r2.1 < 0 then .done r2.1 (xfer + frames) r2.2 [.started hwAvail r2.1]
        else .cont st (offset + frames) (size - frames) (xfer + frames) r2.1 r2.2
          [.started hwAvail r2.1]
      else .cont st (offset + frames) (size - frames) (xfer + frames) r.1 r.2 []
    else .cont st (offset + frames) (size - frames) (xfer + frames) r.1 r.2 []

/-- One pass of the `while (size > 0)` body of `snd_pcm_read_areas`
(pcm.c:4247-4296), beginning at the `_again` label. -/
def readStep (ops : PcmFastOps σ) (func : XferFunc σ) (st : PcmState)
    (offset size xfer : Nat) (s : σ) : StepRes σ :=
  let p := ops.avail_update s
  let avail := p.1
  let s1 := p.2
  if avail < 0 then .done (-EPIPE) xfer s1 []
  else if st = .draining ∧ avail = 0 then .done (-EPIPE) xfer s1 []
  else if st ≠ .draining ∧ (avail = 0 ∨ (ops.xfer_align ≤ size ∧ avail < (ops.xfer_align : Int))) then
    if ops.nonblock then .done (-EAGAIN) xfer s1 []
    else
      let q := ops.wait s1
      if q.1 < 0 then .done q.1 xfer q.2 []
      else .cont (ops.state q.2) offset size xfer q.1 q.2 []
  else
    let availN := avail.toNat
    let avail2 := alignSize availN ops.xfer_align
    let frames := min size avail2
    let r := func s1 offset frames
    if r.1 < 0 then .done r.1 xfer r.2 []
    else .cont st (offset + frames) (size - frames) (xfer + frames) r.1 r.2 []

/-- `_end: return xfer > 0 ? (snd_pcm_sframes_t) xfer : err;` -/
def finalRes (xfer : Nat) (err : Int) : Int :=
  if 0 < xfer then (xfer : Int) else err

/-- Fuel-indexed driver of the `while (size > 0)` transfer loop shared by the
read and write paths.  `none` means the fuel ran out (the C loop can wait
indefinitely).  The final value is resolved as in the `_end` label. -/
def runLoop (step : PcmState → Nat → Nat → Nat → σ → StepRes σ) :
    Nat → PcmState → Nat → Nat → Nat → Int → σ → Option (Int × σ × List Event)
  | 0, _, _, _, _, _, _ => none
  | fuel + 1, st, offset, size, xfer, err, s =>
    if size = 0 then some (finalRes xfer err, s, [])
    else
      match step st offset size xfer s with
      | .done e x s' tr => some (finalRes x e, s', tr)
      | .cont st' o' sz' x' e' s' tr =>
        match runLoop step fuel st' o' sz' x' e' s' with
        | none => none
        | some (r, s'', tr') => some (r, s'', tr ++ tr')

/-- Shallow embedding of `snd_pcm_write_areas` (pcm.c:4301-4385): size-zero
early return, alignment rounding, the state gate, then the transfer loop. -/
def snd_pcm_write_areas (ops : PcmFastOps σ) (func : XferFunc σ) (fuel : Nat)
    (offset size : Nat) (s : σ) : Option (Int × σ × List Event) :=
  let st := ops.state s
  if size = 0 then some (0, s, [])
  else
    let size1 := alignSize size ops.xfer_align
    match st with
    | .prepared => runLoop (writeStep ops func) fuel st offset size1 0 0 s
    | .running => runLoop (writeStep ops func) fuel st offset size1 0 0 s
    | .xrun => some (-EPIPE, s, [])
    | _ => some (-EBADFD, s, [])

/-- Shallow embedding of `snd_pcm_read_areas` (pcm.c:4217-4299): size-zero
early return, alignment rounding, the state gate (with the start-threshold
start from PREPARED), then the transfer loop. -/
def snd_pcm_read_areas (ops : PcmFastOps σ) (func : XferFunc σ) (fuel : Nat)
    (offset size : Nat) (s : σ) : Option (Int × σ × List Event) :=
  let st := ops.state s
  if size = 0 then some (0, s, [])
  else
    let size1 := alignSize size ops.xfer_align
    match st with
    | .prepared =>
      if ops.start_threshold ≤ size1 then
        let r := ops.start s
        if r.1 < 0 then some (finalRes 0 r.1, r.2, [.startedEntry r.1])
        else
          match runLoop (readStep ops func) fuel st offset size1 0 r.1 r.2 with
          | none => none
          | some (v, s', tr) => some (v, s', .startedEntry r.1 :: tr)
      else runLoop (readStep ops func) fuel st offset size1 0 0 s
    | .draining => runLoop (readStep ops func) fuel st offset size1 0 0 s
    | .running => runLoop (readStep ops func) fuel st offset size1 0 0 s
    | .xrun => some (-EPIPE, s, [])
    | _ => some (-EBADFD, s, [])

/-- Stream direction (`snd_pcm_stream_t`). -/
inductive Stream where
  | playback
  | capture
  deriving DecidableEq

/-- Static configuration of the concrete driver double used to instantiate
the parametric transfer loops. -/
structure Cfg where
  buffer_size : Nat
  boundary : Nat
  xfer_align : Nat
  start_threshold : Nat
  nonblock : Bool
  deriving DecidableEq

/-- Concrete handle state of the driver double: device state plus the two
ring-buffer pointers (values below `boundary`). -/
structure MPcm where
  st : PcmState
  applPtr : Nat
  hwPtr : Nat
  deriving DecidableEq

/-- Modelled from the spec: playback availability, §3 Ring-buffer position:
`avail = buffer_size - (appl_ptr - hw_ptr) mod boundary` (the helper
`snd_pcm_mmap_playback_avail` lives in `pcm_local.h`, absent from src). -/
def availPlayback (c : Cfg) (m : MPcm) : Int :=
  (c.buffer_size : Int) - ((m.applPtr : Int) - (m.hwPtr : Int)).emod (c.boundary : Int)

/-- Modelled from the spec: capture availability, §3 Ring-buffer position:
`avail = (hw_ptr - appl_ptr) mod boundary` (the helper
`snd_pcm_mmap_capture_avail` lives in `pcm_local.h`, absent from src). -/
def availCapture (c : Cfg) (m : MPcm) : Int :=
  ((m.hwPtr : Int) - (m.applPtr : Int)).emod (c.boundary : Int)

/-- Modelled from the spec: a driver double for the fast-op vtable (§4.1 state
machine, §6 fast operation vtable), playback direction.  `state` reports the
stored state; `avail_update` computes the §3 playback formula with the
hardware pointer held fixed (a test double per §8); `start` performs
`PREPARED → RUNNING` and fails with `BadState` from any other state (§4.1);
`wait` succeeds without changing anything. -/
def modelOps (c : Cfg) : PcmFastOps MPcm where
  state := fun m => m.st
  avail_update := fun m => (availPlayback c m, m)
  start := fun m =>
    if m.st = .prepared then (0, { m with st := .running }) else (-EBADFD, m)
  wait := fun m => (0, m)
  nonblock := c.nonblock
  xfer_align := c.xfer_align
  start_threshold := c.start_threshold
  buffer_size := c.buffer_size

/-- Modelled from the spec: a transfer callback double that moves `frames`
frames and advances the application pointer by `frames` modulo `boundary`
(§4.2 `commitAccess`), returning the count moved. -/
def modelFunc (c : Cfg) : XferFunc MPcm :=
  fun m _offset frames =>
    ((frames : Int), { m with applPtr := (m.applPtr + frames) % c.boundary })

/-- Successful `snd_pcm_start` invocations recorded in a ghost trace; with
`modelOps`, a start returns 0 exactly when the device state was PREPARED. -/
def countSucc (tr : List Event) : Nat :=
  (tr.filter fun e =>
    match e with
    | .started _ r => r == 0
    | _ => false).length

/-- The PCM handle fields read by `snd_pcm_mmap_begin` / `snd_pcm_mmap_commit`
(pcm.c:4141-4183).  Channel-area tables are opaque identifiers. -/
structure Pcm where
  stream : Stream
  st : PcmState
  applPtr : Nat
  hwPtr : Nat
  buffer_size : Nat
  boundary : Nat
  running_areas : Nat
  stopped_areas : Option Nat
  deriving DecidableEq

/-- Modelled from the spec: `snd_pcm_mmap_avail` (in `pcm_local.h`, absent
from src), §3 Ring-buffer position: playback availability is
`buffer_size - (appl_ptr - hw_ptr) mod boundary`, capture availability is
`(hw_ptr - appl_ptr) mod boundary`; clamped at zero as an unsigned count. -/
def snd_pcm_mmap_avail (p : Pcm) : Nat :=
  match p.stream with
  | .playback =>
    ((p.buffer_size : Int) - ((p.applPtr : Int) - (p.hwPtr : Int)).emod (p.boundary : Int)).toNat
  | .capture =>
    (((p.hwPtr : Int) - (p.applPtr : Int)).emod (p.boundary : Int)).toNat

/-- Shallow embedding of `snd_pcm_mmap_begin` (pcm.c:4141-4165): returns the
areas (stopped fallback when present and not RUNNING), the application
pointer offset modulo the buffer size, and the clamped frame count. -/
def snd_pcm_mmap_begin (p : Pcm) (wanted : Nat) : Nat × Nat × Nat :=
  let areas :=
    match p.stopped_areas with
    | some a => if p.st ≠ .running then a else p.running_areas
    | none => p.running_areas
  let offset := p.applPtr % p.buffer_size
  let cont := p.buffer_size - offset
  let avail := snd_pcm_mmap_avail p
  let f0 := wanted
  let f1 := if avail < f0 then avail else f0
  let f2 := if cont < f1 then cont else f1
  (areas, offset, f2)

/-- Modelled from the spec: the fast-op `mmap_commit` (§4.2 `commitAccess`):
advances the application pointer by `frames` modulo `boundary` and reports
the driver-side result (the frame count). -/
def fastMmapCommit (p : Pcm) (_offset frames : Nat) : Int × Pcm :=
  ((frames : Int), { p with applPtr := (p.applPtr + frames) % p.boundary })

/-- Shallow embedding of `snd_pcm_mmap_commit` (pcm.c:4176-4183).  The C
function asserts `offset == *pcm->appl_ptr % pcm->buffer_size` and
`frames <= snd_pcm_mmap_avail(pcm)`; an assertion failure aborts the process
and is modelled as `none`.  Otherwise the commit is forwarded to the fast-op
vtable. -/
def snd_pcm_mmap_commit (p : Pcm) (offset frames : Nat) : Option (Int × Pcm) :=
  if offset ≠ p.applPtr % p.buffer_size then none
  else if ¬ frames ≤ snd_pcm_mmap_avail p then none
  else some (fastMmapCommit p offset frames)

/-- Physical sample widths supported by the area kernel (the `switch (width)`
cases of pcm.c:1219-1275 / 1365-1431). -/
inductive Width where
  | w4
  | w8
  | w16
  | w32
  | w64
  deriving DecidableEq

/-- Width in bits. -/
def Width.bits : Width → Nat
  | .w4 => 4
  | .w8 => 8
  | .w16 => 16
  | .w32 => 32
  | .w64 => 64

/-- Modelled from the spec: a supported sample format, §4.3 FormatKernel —
"a physical sample width derived from the sample format (1 of: 4, 8, 16, 32,
64 bits) and an explicit silence pattern value for that format"
(`snd_pcm_format_physical_width` / `snd_pcm_format_silence_64` live in
`pcm_misc.c`, absent from src). -/
structure Format where
  width : Width
  silence64 : Nat
  deriving DecidableEq

/-- Modelled from the spec: `snd_pcm_format_physical_width` (§4.3). -/
def snd_pcm_format_physical_width (f : Format) : Nat := f.width.bits

/-- Modelled from the spec: `snd_pcm_format_silence_64` (§4.3), the 64-bit
silence pattern of the format. -/
def snd_pcm_format_silence_64 (f : Format) : Nat := f.silence64

/-- A channel-area descriptor (`snd_pcm_channel_area_t`): base address
(`none` = null pointer), bit offset of the first sample, bit stride. -/
structure ChannelArea where
  addr : Option Nat
  first : Nat
  step : Nat
  deriving DecidableEq

/-- Byte-addressed memory; values are read and written modulo 256. -/
def Mem : Type := Nat → Nat

/-- Modelled from the spec: `snd_pcm_channel_area_addr` (in `pcm_local.h`,
absent from src): byte address of the sample at frame `offset`,
`addr + (first + step * offset) / 8`. -/
def snd_pcm_channel_area_addr (base : Nat) (a : ChannelArea) (offset : Nat) : Nat :=
  base + (a.first + a.step * offset) / 8

/-- Byte `i` of the little-endian representation of `v`. -/
def byteOf (v i : Nat) : Nat := v / 256 ^ i % 256

/-- Store one byte (`*dst = v`, value masked to a byte). -/
def writeByte (m : Mem) (a v : Nat) : Mem :=
  fun x => if x = a then v % 256 else m x

/-- Store the `n` low bytes of `v` at `a`, little-endian (one `*(u_intN_t*)dst
= v` store). -/
def writeLE (m : Mem) (a v : Nat) : Nat → Mem
  | 0 => m
  | n + 1 => writeLE (writeByte m a v) (a + 1) (v / 256) n

/-- Load `n` bytes at `a` little-endian (one `*(const u_intN_t*)src` load). -/
def readLE (m : Mem) (a : Nat) : Nat → Nat
  | 0 => 0
  | n + 1 => m a % 256 + 256 * readLE m (a + 1) n

/-- The fast-path word loop of `snd_pcm_area_silence`
(`while (dwords-- > 0) *((u_int64_t*)dst)++ = silence;`). -/
def writeWords (sil : Nat) : Mem → Nat → Nat → Mem
  | m, _, 0 => m
  | m, a, k + 1 => writeWords sil (writeLE m a sil 8) (a + 8) k

/-- `memcpy(dst, src, bytes)` over disjoint regions: destination bytes take
the source bytes of the pre-call memory. -/
def memcpy (m : Mem) (dst src bytes : Nat) : Mem :=
  fun x => if dst ≤ x ∧ x < dst + bytes then m (src + (x - dst)) % 256 else m x

/-- Slow-path silence loop for widths 8/16/32/64 (pcm.c:1242-1272): each
iteration stores the low `w` bytes of the silence pattern and advances by
`dstStep` bytes. -/
def silLoopW (w sil dstStep : Nat) : Mem → Nat → Nat → Mem
  | m, _, 0 => m
  | m, dst, n + 1 => silLoopW w sil dstStep (writeLE m dst sil w) (dst + dstStep) n

/-- Slow-path 4-bit silence loop (pcm.c:1220-1241): nibble-granular stores
with the `dstbit` tracking of the C code. -/
def silLoop4 (s0 s1 dstStep dstbitStep : Nat) : Mem → Nat → Nat → Nat → Mem
  | m, _, _, 0 => m
  | m, dst, dstbit, n + 1 =>
    let b := m dst % 256
    let b' := if dstbit ≠ 0 then (b &&& 0xf0) ||| s1 else (b &&& 0x0f) ||| s0
    let m' := writeByte m dst b'
    let dst' := dst + dstStep
    let dstbit' := dstbit + dstbitStep
    if dstbit' = 8 then silLoop4 s0 s1 dstStep dstbitStep m' (dst' + 1) 0 n
    else silLoop4 s0 s1 dstStep dstbitStep m' dst' dstbit' n

/-- Slow-path copy loop for widths 8/16/32/64 (pcm.c:1397-1428): each
iteration loads `w` bytes at `src` and stores them at `dst`. -/
def cpLoopW (w srcStep dstStep : Nat) : Mem → Nat → Nat → Nat → Mem
  | m, _, _, 0 => m
  | m, src, dst, n + 1 =>
    cpLoopW w srcStep dstStep (writeLE m dst (readLE m src w) w) (src + srcStep) (dst + dstStep) n

/-- Slow-path 4-bit copy loop (pcm.c:1366-1396), with the C code's nibble
masking (`srcval` is OR-ed into the destination byte unshifted). -/
def cpLoop4 (srcStep dstStep srcbitStep dstbitStep : Nat) :
    Mem → Nat → Nat → Nat → Nat → Nat → Mem
  | m, _, _, _, _, 0 => m
  | m, src, srcbit, dst, dstbit, n + 1 =>
    let srcval := if srcbit ≠ 0 then m src % 256 &&& 0x0f else m src % 256 &&& 0xf0
    let b := m dst % 256
    let b' := (if dstbit ≠ 0 then b &&& 0xf0 else b &&& 0x0f) ||| srcval
    let m' := writeByte m dst b'
    let src1 := src + srcStep
    let srcbit1 := srcbit + srcbitStep
    let src2 := if srcbit1 = 8 then src1 + 1 else src1
    let srcbit2 := if srcbit1 = 8 then 0 else srcbit1
    let dst1 := dst + dstStep
    let dstbit1 := dstbit + dstbitStep
    let dst2 := if dstbit1 = 8 then dst1 + 1 else dst1
    let dstbit2 := if dstbit1 = 8 then 0 else dstbit1
    cpLoop4 srcStep dstStep srcbitStep dstbitStep m' src2 srcbit2 dst2 dstbit2 n

/-- Shallow embedding of `snd_pcm_area_silence` (pcm.c:1197-1277): null-area
no-op, the tightly-packed 64-bit fast path with its scalar tail, and the
per-width slow paths. -/
def snd_pcm_area_silence (dst_area : ChannelArea) (dst_offset samples : Nat)
    (f : Format) (m : Mem) : Int × Mem :=
  match dst_area.addr with
  | none => (0, m)
  | some base =>
    let dst := snd_pcm_channel_area_addr base dst_area dst_offset
    let width := snd_pcm_format_physical_width f
    let silence := snd_pcm_format_silence_64 f
    let fp := dst_area.step = width
    let dwords := if fp then samples * width / 64 else 0
    let samples1 := if fp then samples - dwords * 64 / width else samples
    let m1 := if fp then writeWords silence m dst dwords else m
    let dst1 := if fp then dst + 8 * dwords else dst
    let dstStep := dst_area.step / 8
    match f.width with
    | .w4 =>
      (0, silLoop4 (silence &&& 0xf0) (silence &&& 0x0f) dstStep (dst_area.step % 8)
        m1 dst1 (dst_area.first % 8) samples1)
    | .w8 => (0, silLoopW 1 silence dstStep m1 dst1 samples1)
    | .w16 => (0, silLoopW 2 silence dstStep m1 dst1 samples1)
    | .w32 => (0, silLoopW 4 silence dstStep m1 dst1 samples1)
    | .w64 => (0, silLoopW 8 silence dstStep m1 dst1 samples1)

/-- Shallow embedding of `snd_pcm_area_copy` (pcm.c:1339-1433): null source
falls back to silence, null destination is a no-op, the packed fast path is a
`memcpy` (NOT advancing the pointers, as in the C), and the per-width slow
paths follow. -/
def snd_pcm_area_copy (dst_area : ChannelArea) (dst_offset : Nat)
    (src_area : ChannelArea) (src_offset samples : Nat) (f : Format) (m : Mem) : Int × Mem :=
  match src_area.addr with
  | none => snd_pcm_area_silence dst_area dst_offset samples f m
  | some sbase =>
    let src := snd_pcm_channel_area_addr sbase src_area src_offset
    match dst_area.addr with
    | none => (0, m)
    | some dbase =>
      let dst := snd_pcm_channel_area_addr dbase dst_area dst_offset
      let width := snd_pcm_format_physical_width f
      let fp := src_area.step = width ∧ dst_area.step = width
      let bytes := if fp then samples * width / 8 else 0
      let samples1 := if fp then samples - bytes * 8 / width else samples
      let m1 := if fp then memcpy m dst src bytes else m
      let srcStep := src_area.step / 8
      let dstStep := dst_area.step / 8
      match f.width with
      | .w4 =>
        (0, cpLoop4 srcStep dstStep (src_area.step % 8) (dst_area.step % 8)
          m1 src (src_area.first % 8) dst (dst_area.first % 8) samples1)
      | .w8 => (0, cpLoopW 1 srcStep dstStep m1 src dst samples1)
      | .w16 => (0, cpLoopW 2 srcStep dstStep m1 src dst samples1)
      | .w32 => (0, cpLoopW 4 srcStep dstStep m1 src dst samples1)
      | .w64 => (0, cpLoopW 8 srcStep dstStep m1 src dst samples1)

/-- The inner grouping loop of `snd_pcm_areas_silence` (pcm.c:1299-1308):
number of extra channels after the first that chain onto it (same address,
same step, firsts exactly one sample width apart). -/
def chnsRun (addr0 : Option Nat) (step0 width : Nat) : Nat → List ChannelArea → Nat
  | _, [] => 0
  | prevFirst, b :: rest =>
    if b.addr = addr0 ∧ b.step = step0 ∧ b.first = prevFirst + width then
      1 + chnsRun addr0 step0 width b.first rest
    else 0

/-- Shallow embedding of `snd_pcm_areas_silence` (pcm.c:1288-1326): walks the
channel list, collapsing maximal tightly-interleaved runs into one wide
single-area call. -/
def snd_pcm_areas_silence (dst_areas : List ChannelArea) (dst_offset frames : Nat)
    (f : Format) (m : Mem) : Int × Mem :=
  match dst_areas with
  | [] => (0, m)
  | a :: rest =>
    let width := snd_pcm_format_physical_width f
    let chns := 1 + chnsRun a.addr a.step width a.first rest
    if 1 < chns ∧ chns * width = a.step then
      let d : ChannelArea := ⟨a.addr, a.first, width⟩
      let em := snd_pcm_area_silence d (dst_offset * chns) (frames * chns) f m
      if em.1 < 0 then em
      else snd_pcm_areas_silence (rest.drop (chns - 1)) dst_offset frames f em.2
    else
      let em := snd_pcm_area_silence a dst_offset frames f m
      if em.1 < 0 then em
      else snd_pcm_areas_silence rest dst_offset frames f em.2
termination_by dst_areas.length
decreasing_by
  · simp only [List.length_cons, List.length_drop]
    omega
  · simp only [List.length_cons]
    omega

/-- The inner grouping loop of `snd_pcm_areas_copy` (pcm.c:1463-1475): number
of extra channel pairs after the first that chain onto it. -/
def cpChnsRun (stepW width : Nat) (srcAddr dstAddr : Option Nat) :
    Nat → Nat → List ChannelArea → List ChannelArea → Nat
  | _, _, [], _ => 0
  | _, _, _, [] => 0
  | pSrcF, pDstF, sa :: srest, da :: drest =>
    if sa.step = stepW ∧ sa.addr = srcAddr ∧ da.addr = dstAddr ∧
        sa.first = pSrcF + width ∧ da.first = pDstF + width ∧ da.step = stepW then
      1 + cpChnsRun stepW width srcAddr dstAddr sa.first da.first srest drest
    else 0

/-- Shallow embedding of `snd_pcm_areas_copy` (pcm.c:1446-1499): walks the
channel lists, collapsing maximal tightly-interleaved runs into one wide
single-area call; the per-area return value is ignored, as in the C. -/
def snd_pcm_areas_copy (dst_areas : List ChannelArea) (dst_offset : Nat)
    (src_areas : List ChannelArea) (src_offset frames : Nat)
    (f : Format) (m : Mem) : Int × Mem :=
  match dst_areas, src_areas with
  | da :: drest, sa :: srest =>
    let width := snd_pcm_format_physical_width f
    let stepW := sa.step
    let chns :=
      if da.step = stepW then
        1 + cpChnsRun stepW width sa.addr da.addr sa.first da.first srest drest
      else 0
    if 1 < chns ∧ chns * width = stepW then
      let s : ChannelArea := ⟨sa.addr, sa.first, width⟩
      let d : ChannelArea := ⟨da.addr, da.first, width⟩
      let em := snd_pcm_area_copy d (dst_offset * chns) s (src_offset * chns)
        (frames * chns) f m
      snd_pcm_areas_copy (drest.drop (chns - 1)) dst_offset (srest.drop (chns - 1))
        src_offset frames f em.2
    else
      let em := snd_pcm_area_copy da dst_offset sa src_offset frames f m
      snd_pcm_areas_copy drest dst_offset srest src_offset frames f em.2
  | _, _ => (0, m)
termination_by dst_areas.length
decreasing_by
  · simp only [List.length_cons, List.length_drop]
    omega
  · simp only [List.length_cons]
    omega

/-- The spec side of the collapsing-transparency claim (§4.3): invoke the
single-area silence primitive once per channel with per-channel parameters. -/
def perChannelSilence : List ChannelArea → Nat → Nat → Format → Mem → Mem
  | [], _, _, _, m => m
  | a :: rest, off, frames, f, m =>
    perChannelSilence rest off frames f (snd_pcm_area_silence a off frames f m).2

/-- The spec side of the collapsing-transparency claim (§4.3): invoke the
single-area copy primitive once per channel pair with per-channel
parameters. -/
def perChannelCopy : List ChannelArea → Nat → List ChannelArea → Nat → Nat → Format → Mem → Mem
  | da :: drest, doff, sa :: srest, soff, frames, f, m =>
    perChannelCopy drest doff srest soff frames f
      (snd_pcm_area_copy da doff sa soff frames f m).2
  | _, _, _, _, _, _, m => m

/-- The byte positions `d, d+D, ...` hit by a strided loop writing `w`-byte
samples with a `D`-byte stride, `n` samples starting at `d`. -/
def Hit (d D w n x : Nat) : Prop :=
  d ≤ x ∧ (x - d) / D < n ∧ (x - d) % D < w

instance (d D w n x : Nat) : Decidable (Hit d D w n x) :=
  inferInstanceAs (Decidable (_ ∧ _ ∧ _))

/-- The silence pattern of a format repeats with the period of the physical
sample width (true of every real format's `snd_pcm_format_silence_64`). -/
def silPeriodic (f : Format) : Prop :=
  ∀ u < 8, byteOf f.silence64 u = byteOf f.silence64 (u % (f.width.bits / 8))

/-- Byte `x` belongs to one of the `n` samples (of `W` bytes) that a channel
area stores starting at frame `off`. -/
def inArea (a : ChannelArea) (off n W x : Nat) : Prop :=
  match a.addr with
  | none => False
  | some b => ∃ i < n, ∃ u < W, x = b + (a.first + a.step * (off + i)) / 8 + u

/-- Byte `x` belongs to some channel of the list. -/
def inAreas (l : List ChannelArea) (off n W x : Nat) : Prop :=
  ∃ a ∈ l, inArea a off n W x

/-- No destination byte of the transfer is also a source byte. -/
def noOverlap (dsts : List ChannelArea) (doff : Nat) (srcs : List ChannelArea)
    (soff n W : Nat) : Prop :=
  ∀ x, inAreas dsts doff n W x → ¬ inAreas srcs soff n W x

/-- The channel areas of one tightly-interleaved run: common address and
stride `chns * width`, firsts one sample width apart. -/
def groupAreas (addr : Option Nat) (f0 width chns : Nat) : List ChannelArea :=
  (List.range chns).map fun k => ⟨addr, f0 + k * width, chns * width⟩

/-! Concrete instances used by witnesses and counterexamples. -/

/-- Driver-double configuration: buffer 4, boundary 16, align 1, threshold 2,
blocking. -/
def cW : Cfg := ⟨4, 16, 1, 2, false⟩

/-- Same configuration in non-blocking mode, threshold 1. -/
def cNB : Cfg := ⟨4, 16, 1, 1, true⟩

/-- A freshly prepared handle (empty buffer). -/
def mPrep : MPcm := ⟨.prepared, 0, 0⟩

/-- A prepared handle whose buffer is full (`avail = 0`). -/
def mFull : MPcm := ⟨.prepared, 4, 0⟩

/-- A running handle whose buffer is full (`avail = 0`). -/
def mRun0 : MPcm := ⟨.running, 4, 0⟩

/-- A draining handle with no frames available. -/
def mDrainFull : MPcm := ⟨.draining, 4, 0⟩

/-- A handle in the XRUN state. -/
def mXrun : MPcm := ⟨.xrun, 0, 0⟩

/-- The handle state after `modelFunc` has moved 2 frames from `mPrep`. -/
def mAfter2 : MPcm := ⟨.prepared, 2, 0⟩

/-- mmap-protocol handle: playback, running, `appl_ptr = 3`, buffer 4. -/
def pMm : Pcm := ⟨.playback, .running, 3, 0, 4, 16, 7, none⟩

/-- mmap-protocol handle with a stopped-fallback area, not running. -/
def pStop : Pcm := ⟨.playback, .prepared, 0, 0, 4, 16, 7, some 9⟩

/-- mmap-protocol handle used for the commit counterexample
(`appl_ptr % buffer_size = 0`). -/
def pC6 : Pcm := ⟨.playback, .running, 0, 0, 4, 16, 7, none⟩

/-- A 16-bit format with a 16-bit-periodic nonzero silence pattern. -/
def fmt16 : Format := ⟨.w16, 0x1122112211221122⟩

/-- A 4-bit format with silence pattern 0. -/
def fmt4 : Format := ⟨.w4, 0⟩

/-- Two tightly interleaved 16-bit channels at address 0. -/
def areas16 : List ChannelArea := [⟨some 0, 0, 32⟩, ⟨some 0, 16, 32⟩]

/-- Two tightly interleaved 16-bit source channels at address 100. -/
def srcs16 : List ChannelArea := [⟨some 100, 0, 32⟩, ⟨some 100, 16, 32⟩]

/-- Two 4-bit channels at address 0 with misaligned bit offsets 1 and 5. -/
def areas4mis : List ChannelArea := [⟨some 0, 1, 8⟩, ⟨some 0, 5, 8⟩]

/-- A memory filled with the byte `0xAB`. -/
def memAB : Mem := fun _ => 0xAB

/-- A memory whose byte at `x` is `x + 1`. -/
def memId : Mem := fun x => x + 1

/-- A driver double whose start operation always fails with `BadState`. -/
def failStartOps (c : Cfg) : PcmFastOps MPcm :=
  { modelOps c with start := fun m => (-EBADFD, m) }

/-! ### Theorems -/

theorem alignSize_pos {v xa : Nat} (hxa : 0 < xa) (hv : 0 < v) :
    0 < alignSize v xa := by
  unfold alignSize
  split
  · have := Nat.mod_lt v hxa
    omega
  · exact hv

/-- C1: for every PCM handle and positive requested size, a transfer in state
XRUN returns `-EPIPE`; a write in any state other than PREPARED, RUNNING or
XRUN returns `-EBADFD`; a read in any state other than PREPARED, RUNNING,
DRAINING or XRUN returns `-EBADFD`; writes proceed to the transfer loop from
PREPARED or RUNNING, and reads proceed from PREPARED, RUNNING or DRAINING
(from PREPARED via the start-threshold start). -/
theorem transfer_state_gate {σ : Type} (ops : PcmFastOps σ) (func : XferFunc σ)
    (fuel offset size : Nat) (s : σ) (hsize : 0 < size) :
    (ops.state s = .xrun →
      snd_pcm_write_areas ops func fuel offset size s = some (-EPIPE, s, []) ∧
      snd_pcm_read_areas ops func fuel offset size s = some (-EPIPE, s, [])) ∧
    (ops.state s ≠ .prepared → ops.state s ≠ .running → ops.state s ≠ .xrun →
      snd_pcm_write_areas ops func fuel offset size s = some (-EBADFD, s, [])) ∧
    (ops.state s ≠ .prepared → ops.state s ≠ .running → ops.state s ≠ .draining →
      ops.state s ≠ .xrun →
      snd_pcm_read_areas ops func fuel offset size s = some (-EBADFD, s, [])) ∧
    ((ops.state s = .prepared ∨ ops.state s = .running) →
      snd_pcm_write_areas ops func fuel offset size s =
        runLoop (writeStep ops func) fuel (ops.state s) offset
          (alignSize size ops.xfer_align) 0 0 s) ∧
    ((ops.state s = .running ∨ ops.state s = .draining) →
      snd_pcm_read_areas ops func fuel offset size s =
        runLoop (readStep ops func) fuel (ops.state s) offset
          (alignSize size ops.xfer_align) 0 0 s) ∧
    (ops.state s = .prepared → alignSize size ops.xfer_align < ops.start_threshold →
      snd_pcm_read_areas ops func fuel offset size s =
        runLoop (readStep ops func) fuel (ops.state s) offset
          (alignSize size ops.xfer_align) 0 0 s) ∧
    (ops.state s = .prepared → ops.start_threshold ≤ alignSize size ops.xfer_align →
      snd_pcm_read_areas ops func fuel offset size s =
        (if (ops.start s).1 < 0 then
          some (finalRes 0 (ops.start s).1, (ops.start s).2, [.startedEntry (ops.start s).1])
        else
          match runLoop (readStep ops func) fuel .prepared offset
              (alignSize size ops.xfer_align) 0 (ops.start s).1 (ops.start s).2 with
          | none => none
          | some (v, s', tr) => some (v, s', .startedEntry (ops.start s).1 :: tr))) := by
  refine ⟨?_, ?_, ?_, ?_, ?_, ?_, ?_⟩
  · intro h
    constructor <;> simp [snd_pcm_write_areas, snd_pcm_read_areas, h, hsize.ne']
  · intro h1 h2 h3
    cases hst : ops.state s <;>
      simp_all [snd_pcm_write_areas, hsize.ne']
  · intro h1 h2 h3 h4
    cases hst : ops.state s <;>
      simp_all [snd_pcm_read_areas, hsize.ne']
  · rintro (h | h) <;> simp [snd_pcm_write_areas, h, hsize.ne']
  · rintro (h | h) <;> simp [snd_pcm_read_areas, h, hsize.ne']
  · intro h hlt
    simp [snd_pcm_read_areas, h, hsize.ne', Nat.not_le.mpr hlt]
  · intro h hth
    simp only [snd_pcm_read_areas, h]
    rw [if_neg hsize.ne', if_pos hth]

/-- C9: a write entered in state PREPARED whose first avail recomputation
yields zero returns `-EPIPE` immediately, in blocking and non-blocking mode
alike, with zero frames transferred. -/
theorem write_prepared_empty_epipe {σ : Type} (ops : PcmFastOps σ) (func : XferFunc σ)
    (fuel offset size : Nat) (s s1 : σ)
    (hst : ops.state s = .prepared) (hsz : 0 < size) (hxa : 0 < ops.xfer_align)
    (hav : ops.avail_update s = (0, s1)) :
    snd_pcm_write_areas ops func (fuel + 1) offset size s = some (-EPIPE, s1, []) := by
  have hsz1 : alignSize size ops.xfer_align ≠ 0 := (alignSize_pos hxa hsz).ne'
  simp [snd_pcm_write_areas, runLoop, writeStep, hst, hav, hsz.ne', hsz1, finalRes]

/-- C5: a read loop pass in (cached) state DRAINING that sees zero
availability terminates the call: the call returns the positive transferred
count when any frames were already moved in this call, and `-EPIPE` when none
were (in particular a read entered in DRAINING with zero availability). -/
theorem read_draining_drained {σ : Type} (ops : PcmFastOps σ) (func : XferFunc σ) :
    (∀ (fuel offset size : Nat) (s s1 : σ),
      ops.state s = .draining → 0 < size → 0 < ops.xfer_align →
      ops.avail_update s = (0, s1) →
      snd_pcm_read_areas ops func (fuel + 1) offset size s = some (-EPIPE, s1, [])) ∧
    (∀ (fuel offset size xfer : Nat) (err : Int) (s s1 : σ),
      0 < size → 0 < xfer → ops.avail_update s = (0, s1) →
      runLoop (readStep ops func) (fuel + 1) .draining offset size xfer err s =
        some ((xfer : Int), s1, [])) := by
  constructor
  · intro fuel offset size s s1 hst hsz hxa hav
    have hsz1 : alignSize size ops.xfer_align ≠ 0 := (alignSize_pos hxa hsz).ne'
    simp [snd_pcm_read_areas, runLoop, readStep, hst, hav, hsz.ne', hsz1, finalRes]
  · intro fuel offset size xfer err s s1 hsz hx hav
    simp [runLoop, readStep, hav, hsz.ne', finalRes, hx]

/-- C10: a read entered in state PREPARED whose aligned size reaches
`start_threshold` issues the start before the transfer loop (every returned
trace begins with the entry-start event), and a failing start makes the call
return the start's error with zero frames transferred. -/
theorem read_prepared_threshold_start {σ : Type} (ops : PcmFastOps σ)
    (func : XferFunc σ) (fuel offset size : Nat) (s : σ)
    (hst : ops.state s = .prepared) (hsz : 0 < size)
    (hth : ops.start_threshold ≤ alignSize size ops.xfer_align) :
    ((ops.start s).1 < 0 →
      snd_pcm_read_areas ops func fuel offset size s =
        some ((ops.start s).1, (ops.start s).2, [.startedEntry (ops.start s).1])) ∧
    (∀ r s' tr, snd_pcm_read_areas ops func fuel offset size s = some (r, s', tr) →
      ∃ tl, tr = .startedEntry (ops.start s).1 :: tl) := by
  constructor
  · intro hneg
    simp [snd_pcm_read_areas, hst, hsz.ne', hth, hneg, finalRes,
      show ¬ (0:Nat) < 0 by omega]
  · intro r s' tr hrun
    simp only [snd_pcm_read_areas, hst] at hrun
    rw [if_neg hsz.ne', if_pos hth] at hrun
    by_cases hneg : (ops.start s).1 < 0
    · rw [if_pos hneg] at hrun
      simp only [Option.some.injEq, Prod.mk.injEq] at hrun
      exact ⟨[], hrun.2.2.symm⟩
    · rw [if_neg hneg] at hrun
      rcases hloop : runLoop (readStep ops func) fuel .prepared offset
          (alignSize size ops.xfer_align) 0 (ops.start s).1 (ops.start s).2 with
        _ | ⟨v, s'', tr'⟩
      · rw [hloop] at hrun
        simp at hrun
      · rw [hloop] at hrun
        simp only [Option.some.injEq, Prod.mk.injEq] at hrun
        exact ⟨tr', hrun.2.2.symm⟩

/-- Witness for C1 at a concrete handle in XRUN. -/
theorem transfer_state_gate_witness :
    snd_pcm_write_areas (modelOps cW) (modelFunc cW) 5 0 3 mXrun =
      some (-EPIPE, mXrun, []) :=
  ((transfer_state_gate (modelOps cW) (modelFunc cW) 5 0 3 mXrun (by decide)).1 rfl).1

/-- Witness for C9 at a concrete prepared handle with a full buffer. -/
theorem write_prepared_empty_epipe_witness :
    snd_pcm_write_areas (modelOps cW) (modelFunc cW) 4 0 1 mFull =
      some (-EPIPE, mFull, []) :=
  write_prepared_empty_epipe (modelOps cW) (modelFunc cW) 3 0 1 mFull mFull rfl
    (by decide) (by decide) (by decide)

/-- Witness for C5 at a concrete draining handle with no availability, with
zero and with one frame already transferred. -/
theorem read_draining_drained_witness :
    snd_pcm_read_areas (modelOps cW) (modelFunc cW) 4 0 2 mDrainFull =
      some (-EPIPE, mDrainFull, []) ∧
    runLoop (readStep (modelOps cW) (modelFunc cW)) 4 .draining 0 2 1 0 mDrainFull =
      some (1, mDrainFull, []) :=
  ⟨(read_draining_drained (modelOps cW) (modelFunc cW)).1 3 0 2 mDrainFull mDrainFull
      rfl (by decide) (by decide) (by decide),
    (read_draining_drained (modelOps cW) (modelFunc cW)).2 3 0 2 1 0 mDrainFull mDrainFull
      (by decide) (by decide) (by decide)⟩

/-- Witness for C10 at a concrete prepared handle whose start fails. -/
theorem read_prepared_threshold_start_witness :
    snd_pcm_read_areas (failStartOps cW) (modelFunc cW) 5 0 2 mPrep =
      some (-EBADFD, mPrep, [.startedEntry (-EBADFD)]) :=
  (read_prepared_threshold_start (failStartOps cW) (modelFunc cW) 5 0 2 mPrep rfl
    (by decide) (by decide)).1 (by decide)

/-- C4 (amended): a non-blocking write in state RUNNING that sees zero
availability returns `-EAGAIN` at once, with zero frames transferred and the
handle (in particular its application pointer) unchanged. -/
theorem write_running_nonblock_empty (c : Cfg) (m : MPcm) (fuel offset size : Nat)
    (hst : m.st = .running) (hnb : c.nonblock = true) (hsz : 0 < size)
    (hxa : 0 < c.xfer_align) (hav : availPlayback c m = 0) :
    snd_pcm_write_areas (modelOps c) (modelFunc c) (fuel + 1) offset size m =
      some (-EAGAIN, m, []) := by
  have hsz1 : alignSize size c.xfer_align ≠ 0 := (alignSize_pos hxa hsz).ne'
  simp [snd_pcm_write_areas, runLoop, writeStep, modelOps, hst, hnb, hav,
    hsz.ne', hsz1, finalRes]

/-- Witness for C4 (amended) at a concrete running non-blocking handle. -/
theorem write_running_nonblock_empty_witness :
    snd_pcm_write_areas (modelOps cNB) (modelFunc cNB) 3 0 1 mRun0 =
      some (-EAGAIN, mRun0, []) :=
  write_running_nonblock_empty cNB mRun0 2 0 1 rfl rfl (by decide) (by decide) (by decide)

/-- Counterexample to C4 as stated: in the transfer-legal state PREPARED, a
non-blocking write with zero availability returns `-EPIPE`, not `-EAGAIN`. -/
theorem write_nonblock_prepared_counterexample :
    snd_pcm_write_areas (modelOps cNB) (modelFunc cNB) 3 0 1 mFull =
      some (-EPIPE, mFull, []) ∧ (-EPIPE : Int) ≠ -EAGAIN := by
  constructor
  · decide
  · decide

/-- C2: `snd_pcm_mmap_begin` returns the application-pointer offset modulo
the buffer size and grants `min(wanted, avail, buffer_size - offset)` frames,
never crossing the physical end of the buffer; with a stopped-fallback area
and a non-RUNNING state the stopped areas are returned, otherwise the running
areas. -/
theorem mmap_begin_spec (p : Pcm) (wanted : Nat) (hbs : 0 < p.buffer_size) :
    (snd_pcm_mmap_begin p wanted).2.1 = p.applPtr % p.buffer_size ∧
    (snd_pcm_mmap_begin p wanted).2.2 =
      min wanted (min (snd_pcm_mmap_avail p) (p.buffer_size - p.applPtr % p.buffer_size)) ∧
    (snd_pcm_mmap_begin p wanted).2.1 + (snd_pcm_mmap_begin p wanted).2.2 ≤ p.buffer_size ∧
    (∀ a, p.stopped_areas = some a → p.st ≠ .running →
      (snd_pcm_mmap_begin p wanted).1 = a) ∧
    (p.stopped_areas = none → (snd_pcm_mmap_begin p wanted).1 = p.running_areas) ∧
    (p.st = .running → (snd_pcm_mmap_begin p wanted).1 = p.running_areas) := by
  refine ⟨rfl, ?_, ?_, ?_, ?_, ?_⟩
  · simp only [snd_pcm_mmap_begin, Nat.min_def]
    split_ifs <;> omega
  · have hmod := Nat.mod_lt p.applPtr hbs
    simp only [snd_pcm_mmap_begin]
    split_ifs <;> omega
  · intro a ha hrun
    simp [snd_pcm_mmap_begin, ha, hrun]
  · intro ha
    simp [snd_pcm_mmap_begin, ha]
  · intro hrun
    cases hsa : p.stopped_areas <;> simp [snd_pcm_mmap_begin, hsa, hrun]

/-- Witness for C2 at concrete handles (one running, one with a stopped
fallback area). -/
theorem mmap_begin_spec_witness :
    (snd_pcm_mmap_begin pMm 10).2.1 = pMm.applPtr % pMm.buffer_size ∧
    (snd_pcm_mmap_begin pMm 10).2.1 + (snd_pcm_mmap_begin pMm 10).2.2 ≤ pMm.buffer_size ∧
    (snd_pcm_mmap_begin pStop 10).1 = 9 := by
  have h1 := mmap_begin_spec pMm 10 (by decide)
  have h2 := mmap_begin_spec pStop 10 (by decide)
  exact ⟨h1.1, h1.2.2.1, h2.2.2.2.1 9 rfl (by decide)⟩

/-- C6 (amended): a commit whose offset differs from the current
application-pointer offset, or whose frame count exceeds the availability, is
rejected defensively before the pointer can move — in this source by an
aborting assertion (modelled `none`), not by an `-EINVAL` return. -/
theorem mmap_commit_precondition_guard (p : Pcm) (offset frames : Nat)
    (h : offset ≠ p.applPtr % p.buffer_size ∨ snd_pcm_mmap_avail p < frames) :
    snd_pcm_mmap_commit p offset frames = none := by
  unfold snd_pcm_mmap_commit
  by_cases h1 : offset ≠ p.applPtr % p.buffer_size
  · rw [if_pos h1]
  · rcases h with h | h
    · exact absurd h h1
    · rw [if_neg h1, if_pos (by omega)]

/-- Witness for C6 (amended) at a concrete handle with an excessive frame
count. -/
theorem mmap_commit_precondition_guard_witness :
    snd_pcm_mmap_commit pMm 3 10 = none :=
  mmap_commit_precondition_guard pMm 3 10 (Or.inr (by decide))

/-- Counterexample to C6 as stated: on a mismatched offset the call aborts in
the assertion (modelled `none`); it does not return `-EINVAL`. -/
theorem mmap_commit_no_einval :
    snd_pcm_mmap_commit pC6 1 0 = none ∧
    snd_pcm_mmap_commit pC6 1 0 ≠ some (-EINVAL, pC6) := by
  constructor
  · decide
  · decide

/-- C8: `snd_pcm_area_copy` with a null source behaves exactly as
`snd_pcm_area_silence` on the destination, and with a null destination (and
non-null source) performs no write and returns 0. -/
theorem area_copy_null_areas (dst : ChannelArea) (doff soff n : Nat) (f : Format)
    (sf ss : Nat) (m : Mem) :
    snd_pcm_area_copy dst doff ⟨none, sf, ss⟩ soff n f m =
      snd_pcm_area_silence dst doff n f m ∧
    ∀ sb df ds, snd_pcm_area_copy ⟨none, df, ds⟩ doff ⟨some sb, sf, ss⟩ soff n f m =
      (0, m) :=
  ⟨rfl, fun _ _ _ => rfl⟩

theorem countSucc_nil : countSucc [] = 0 := rfl

theorem countSucc_append (a b : List Event) :
    countSucc (a ++ b) = countSucc a + countSucc b := by
  simp [countSucc, List.filter_append]

/-- Every `started` event emitted by one write-loop pass carries a
hardware-available count at or above the start threshold. -/
theorem writeStep_started_ge {σ : Type} (ops : PcmFastOps σ) (func : XferFunc σ)
    (st : PcmState) (offset size xfer : Nat) (s : σ) :
    ∀ e ∈ (writeStep ops func st offset size xfer s).trace,
      ∀ hw r, e = .started hw r → (ops.start_threshold : Int) ≤ hw := by
  intro e he hw r heq
  simp only [writeStep] at he
  repeat' split at he
  all_goals
    simp only [StepRes.trace, List.mem_singleton, List.not_mem_nil] at he
  all_goals
    rw [he] at heq
    injection heq with h1 h2
    omega

/-- Trace propagation for the loop driver: a per-pass trace property holds of
every event of a completed run's trace. -/
theorem runLoop_trace_all {σ : Type} (step : PcmState → Nat → Nat → Nat → σ → StepRes σ)
    (P : Event → Prop)
    (hstep : ∀ st offset size xfer s, ∀ e ∈ (step st offset size xfer s).trace, P e) :
    ∀ (fuel : Nat) (st : PcmState) (offset size xfer : Nat) (err : Int) (s : σ)
      (r : Int) (s' : σ) (tr : List Event),
      runLoop step fuel st offset size xfer err s = some (r, s', tr) → ∀ e ∈ tr, P e := by
  intro fuel
  induction fuel with
  | zero =>
    intro st offset size xfer err s r s' tr hrun
    simp [runLoop] at hrun
  | succ n ih =>
    intro st offset size xfer err s r s' tr hrun e he
    simp only [runLoop] at hrun
    split at hrun
    · simp only [Option.some.injEq, Prod.mk.injEq] at hrun
      rw [← hrun.2.2] at he
      simp at he
    · rcases hs : step st offset size xfer s with ⟨e0, x0, s0, tr0⟩ | ⟨st0, o0, sz0, x0, e0, s0, tr0⟩
      · simp only [hs, Option.some.injEq, Prod.mk.injEq] at hrun
        rw [← hrun.2.2] at he
        exact hstep st offset size xfer s e (by rw [hs]; exact he)
      · simp only [hs] at hrun
        rcases hr : runLoop step n st0 o0 sz0 x0 e0 s0 with _ | ⟨r1, s1, tr1⟩
        · simp [hr] at hrun
        · simp only [hr, Option.some.injEq, Prod.mk.injEq] at hrun
          rw [← hrun.2.2] at he
          rcases List.mem_append.mp he with h1 | h1
          · exact hstep st offset size xfer s e (by rw [hs]; exact h1)
          · exact ih st0 o0 sz0 x0 e0 s0 r1 s1 tr1 hr e h1

/-- Characterization of one write-loop pass under the driver double: a `done`
outcome records no successful start; a `cont` outcome either records none and
preserves the device state, or records exactly one and is the
`PREPARED → RUNNING` transition. -/
theorem modelWriteStep_char (c : Cfg) (st : PcmState) (offset size xfer : Nat) (m : MPcm) :
    (∀ e x s' tr,
      writeStep (modelOps c) (modelFunc c) st offset size xfer m = .done e x s' tr →
      countSucc tr = 0) ∧
    (∀ st' o' sz' x' e' s' tr,
      writeStep (modelOps c) (modelFunc c) st offset size xfer m = .cont st' o' sz' x' e' s' tr →
      (countSucc tr = 0 ∧ s'.st = m.st) ∨
      (countSucc tr = 1 ∧ m.st = .prepared ∧ s'.st = .running)) := by
  constructor
  · intro e x s' tr h
    simp only [writeStep, modelOps, modelFunc] at h
    repeat' split at h
    all_goals cases h
    all_goals simp_all [countSucc, EBADFD]
  · intro st' o' sz' x' e' s' tr h
    simp only [writeStep, modelOps, modelFunc] at h
    repeat' split at h
    all_goals cases h
    all_goals simp_all [countSucc, EBADFD]

/-- Under the driver double, a completed write loop records at most one
successful start, and none at all if the device was no longer PREPARED when
the loop was entered. -/
theorem modelWriteLoop_succ (c : Cfg) :
    ∀ (fuel : Nat) (st : PcmState) (offset size xfer : Nat) (err : Int) (m : MPcm)
      (r : Int) (m' : MPcm) (tr : List Event),
      runLoop (writeStep (modelOps c) (modelFunc c)) fuel st offset size xfer err m =
        some (r, m', tr) →
      countSucc tr ≤ 1 ∧ (m.st ≠ .prepared → countSucc tr = 0) := by
  intro fuel
  induction fuel with
  | zero =>
    intro st offset size xfer err m r m' tr hrun
    simp [runLoop] at hrun
  | succ n ih =>
    intro st offset size xfer err m r m' tr hrun
    simp only [runLoop] at hrun
    split at hrun
    · simp only [Option.some.injEq, Prod.mk.injEq] at hrun
      rw [← hrun.2.2]
      exact ⟨by simp [countSucc], fun _ => rfl⟩
    · rcases hs : writeStep (modelOps c) (modelFunc c) st offset size xfer m with
        ⟨e0, x0, s0, tr0⟩ | ⟨st0, o0, sz0, x0, e0, s0, tr0⟩
      · simp only [hs, Option.some.injEq, Prod.mk.injEq] at hrun
        rw [← hrun.2.2]
        have h0 := (modelWriteStep_char c st offset size xfer m).1 e0 x0 s0 tr0 hs
        exact ⟨by omega, fun _ => h0⟩
      · simp only [hs] at hrun
        rcases hr : runLoop (writeStep (modelOps c) (modelFunc c)) n st0 o0 sz0 x0 e0 s0 with
          _ | ⟨r1, s1, tr1⟩
        · simp [hr] at hrun
        · simp only [hr, Option.some.injEq, Prod.mk.injEq] at hrun
          rw [← hrun.2.2, countSucc_append]
          have hc := (modelWriteStep_char c st offset size xfer m).2 st0 o0 sz0 x0 e0 s0 tr0 hs
          have hrec := ih st0 o0 sz0 x0 e0 s0 r1 s1 tr1 hr
          rcases hc with ⟨hz, hpres⟩ | ⟨h1, hprep, hrunning⟩
          · constructor
            · omega
            · intro hne
              have : s0.st ≠ .prepared := by rw [hpres]; exact hne
              have := hrec.2 this
              omega
          · have : s0.st ≠ .prepared := by simp [hrunning]
            have h2 := hrec.2 this
            constructor
            · omega
            · intro hne
              exact absurd hprep hne

/-- When a write-loop pass entered with cached state PREPARED performs a
transfer whose resulting hardware-available count reaches the start
threshold, the pass issues exactly the one start invocation (its trace is the
single `started` event at that count). -/
theorem writeStep_prepared_threshold_hit {σ : Type} (ops : PcmFastOps σ)
    (func : XferFunc σ) (offset size xfer : Nat) (s s1 s2 : σ) (a rr : Int)
    (hav : ops.avail_update s = (a, s1)) (hpos : 0 < a)
    (hfunc : func s1 offset (min size (alignSize a.toNat ops.xfer_align)) = (rr, s2))
    (hr : 0 ≤ rr)
    (hth : (ops.start_threshold : Int) ≤ (ops.buffer_size : Int) -
      (alignSize a.toNat ops.xfer_align : Int) +
        Nat.cast (min size (alignSize a.toNat ops.xfer_align))) :
    (writeStep ops func .prepared offset size xfer s).trace =
      [Event.started ((ops.buffer_size : Int) - (alignSize a.toNat ops.xfer_align : Int) +
        Nat.cast (min size (alignSize a.toNat ops.xfer_align))) (ops.start s2).1] := by
  have h1 : ¬ a < 0 := by omega
  have h2 : ¬ (True ∧ a = 0) := by
    rintro ⟨-, h⟩
    omega
  have h3 : ¬ (PcmState.prepared ≠ .prepared ∧
      (a = 0 ∨ (ops.xfer_align ≤ size ∧ a < (ops.xfer_align : Int)))) := by
    rintro ⟨h, -⟩
    exact h rfl
  have h4 : ¬ rr < 0 := by omega
  simp only [writeStep, hav, hfunc]
  rw [if_neg h1, if_neg h2, if_neg h3, if_neg h4, if_pos trivial, if_pos hth]
  split <;> rfl

/-- C3: during a playback write entered in PREPARED, `snd_pcm_start` is never
issued with a hardware-available count below `start_threshold`; with the
driver double, at most one start while the device remains PREPARED succeeds
over the whole call (and none if the device had already left PREPARED); and a
loop pass whose transfer makes the hardware-available count reach the
threshold while the cached state is PREPARED issues the start in that very
pass. -/
theorem write_start_threshold_once :
    (∀ {σ : Type} (ops : PcmFastOps σ) (func : XferFunc σ) (fuel offset size : Nat)
      (s : σ) (r : Int) (s' : σ) (tr : List Event),
      snd_pcm_write_areas ops func fuel offset size s = some (r, s', tr) →
      ∀ hw r2, Event.started hw r2 ∈ tr → (ops.start_threshold : Int) ≤ hw) ∧
    (∀ (c : Cfg) (fuel offset size : Nat) (m : MPcm) (r : Int) (m' : MPcm)
      (tr : List Event),
      snd_pcm_write_areas (modelOps c) (modelFunc c) fuel offset size m =
        some (r, m', tr) →
      countSucc tr ≤ 1 ∧ (m.st ≠ .prepared → countSucc tr = 0)) ∧
    (∀ {σ : Type} (ops : PcmFastOps σ) (func : XferFunc σ) (offset size xfer : Nat)
      (s s1 s2 : σ) (a rr : Int),
      ops.avail_update s = (a, s1) → 0 < a →
      func s1 offset (min size (alignSize a.toNat ops.xfer_align)) = (rr, s2) → 0 ≤ rr →
      (ops.start_threshold : Int) ≤ (ops.buffer_size : Int) -
        (alignSize a.toNat ops.xfer_align : Int) +
          Nat.cast (min size (alignSize a.toNat ops.xfer_align)) →
      (writeStep ops func .prepared offset size xfer s).trace =
        [Event.started ((ops.buffer_size : Int) -
          (alignSize a.toNat ops.xfer_align : Int) +
          Nat.cast (min size (alignSize a.toNat ops.xfer_align))) (ops.start s2).1]) := by
  refine ⟨?_, ?_, ?_⟩
  · intro σ ops func fuel offset size s r s' tr hrun hw r2 hmem
    by_cases hsz : size = 0
    · subst hsz
      simp only [snd_pcm_write_areas, reduceIte, Option.some.injEq, Prod.mk.injEq] at hrun
      rw [← hrun.2.2] at hmem
      simp at hmem
    · have hP : ∀ st' offset' size' xfer' s'',
          ∀ e ∈ (writeStep ops func st' offset' size' xfer' s'').trace,
            ∀ hw' r', e = .started hw' r' → (ops.start_threshold : Int) ≤ hw' :=
        fun st' offset' size' xfer' s'' =>
          writeStep_started_ge ops func st' offset' size' xfer' s''
      rcases hst : ops.state s with h | h | h | h | h | h | h <;>
        simp only [snd_pcm_write_areas, hst, if_neg hsz] at hrun
      all_goals first
        | (exact runLoop_trace_all (writeStep ops func)
            (fun e => ∀ hw' r', e = .started hw' r' → (ops.start_threshold : Int) ≤ hw')
            hP fuel _ offset (alignSize size ops.xfer_align) 0 0 s r s' tr hrun
            (Event.started hw r2) hmem hw r2 rfl)
        | (simp only [Option.some.injEq, Prod.mk.injEq] at hrun
           rw [← hrun.2.2] at hmem
           simp at hmem)
  · intro c fuel offset size m r m' tr hrun
    by_cases hsz : size = 0
    · subst hsz
      simp only [snd_pcm_write_areas, reduceIte, Option.some.injEq, Prod.mk.injEq] at hrun
      rw [← hrun.2.2]
      exact ⟨by simp [countSucc], fun _ => rfl⟩
    · rcases hst : (modelOps c).state m with h | h | h | h | h | h | h <;>
        simp only [snd_pcm_write_areas, hst, if_neg hsz] at hrun
      all_goals first
        | (exact modelWriteLoop_succ c fuel _ offset (alignSize size (modelOps c).xfer_align)
            0 0 m r m' tr hrun)
        | (simp only [Option.some.injEq, Prod.mk.injEq] at hrun
           rw [← hrun.2.2]
           exact ⟨by simp [countSucc], fun _ => rfl⟩)
  · intro σ ops func offset size xfer s s1 s2 a rr hav hpos hfunc hr hth
    exact writeStep_prepared_threshold_hit ops func offset size xfer s s1 s2 a rr
      hav hpos hfunc hr hth

/-- Witness for C3 at a concrete prepared handle: the recorded start carries
hardware-available count 2 at threshold 2, the run records at most one
successful start, and the threshold-reaching pass emits exactly the start
event. -/
theorem write_start_threshold_once_witness :
    (((modelOps cW).start_threshold : Int) ≤ 2) ∧
    countSucc [Event.started 2 0] ≤ 1 ∧
    (writeStep (modelOps cW) (modelFunc cW) .prepared 0 2 0 mPrep).trace =
      [Event.started ((((modelOps cW).buffer_size : Nat) : Int) -
        (alignSize (4 : Int).toNat (modelOps cW).xfer_align : Int) +
        Nat.cast (min 2 (alignSize (4 : Int).toNat (modelOps cW).xfer_align)))
        ((modelOps cW).start mAfter2).1] := by
  refine ⟨?_, ?_, ?_⟩
  · exact write_start_threshold_once.1 (modelOps cW) (modelFunc cW) 10 0 2 mPrep 2
      ⟨.running, 2, 0⟩ [Event.started 2 0] (by decide) 2 0 (by simp)
  · exact (write_start_threshold_once.2.1 cW 10 0 2 mPrep 2 ⟨.running, 2, 0⟩
      [Event.started 2 0] (by decide)).1
  · exact write_start_threshold_once.2.2 (modelOps cW) (modelFunc cW) 0 2 0 mPrep mPrep
      mAfter2 4 2 (by decide) (by decide) (by decide) (by decide) (by decide)

/-! ### Byte-level semantics of the area kernel loops -/

theorem byteOf_succ (v i : Nat) : byteOf v (i + 1) = byteOf (v / 256) i := by
  simp only [byteOf, pow_succ]
  rw [Nat.mul_comm (256 ^ i) 256, ← Nat.div_div_eq_div_mul]

theorem writeLE_apply : ∀ (n : Nat) (m : Mem) (a v x : Nat),
    writeLE m a v n x = if a ≤ x ∧ x < a + n then byteOf v (x - a) else m x := by
  intro n
  induction n with
  | zero =>
    intro m a v x
    rw [writeLE, if_neg (by omega)]
  | succ k ih =>
    intro m a v x
    rw [writeLE, ih]
    by_cases h1 : a + 1 ≤ x ∧ x < a + 1 + k
    · rw [if_pos h1, if_pos (by omega)]
      have hx : x - a = (x - (a + 1)) + 1 := by omega
      rw [hx, byteOf_succ]
    · rw [if_neg h1]
      unfold writeByte
      by_cases h2 : x = a
      · rw [if_pos h2, if_pos (by omega)]
        subst h2
        simp [byteOf]
      · rw [if_neg h2, if_neg (by omega)]

theorem readLE_byte : ∀ (n : Nat) (m : Mem) (a u : Nat), u < n →
    byteOf (readLE m a n) u = m (a + u) % 256 := by
  intro n
  induction n with
  | zero =>
    intro m a u h
    omega
  | succ k ih =>
    intro m a u h
    rw [readLE]
    cases u with
    | zero =>
      simp only [byteOf, pow_zero, Nat.div_one, Nat.add_zero]
      omega
    | succ u' =>
      rw [byteOf_succ]
      have hv : (m a % 256 + 256 * readLE m (a + 1) k) / 256 = readLE m (a + 1) k := by
        omega
      rw [hv, ih _ _ _ (by omega)]
      have harg : a + 1 + u' = a + (u' + 1) := by omega
      rw [harg]

theorem writeWords_apply : ∀ (k : Nat) (sil : Nat) (m : Mem) (a x : Nat),
    writeWords sil m a k x =
      if a ≤ x ∧ x < a + 8 * k then byteOf sil ((x - a) % 8) else m x := by
  intro k
  induction k with
  | zero =>
    intro sil m a x
    rw [writeWords, if_neg (by omega)]
  | succ j ih =>
    intro sil m a x
    rw [writeWords, ih]
    by_cases h1 : a + 8 ≤ x ∧ x < a + 8 + 8 * j
    · rw [if_pos h1, if_pos (by omega)]
      congr 1
      omega
    · rw [if_neg h1, writeLE_apply]
      by_cases h2 : a ≤ x ∧ x < a + 8
      · rw [if_pos h2, if_pos (by omega)]
        congr 1
        omega
      · rw [if_neg h2, if_neg (by omega)]

theorem silLoopW_apply (w sil D : Nat) (hw : 0 < w) (hwD : w ≤ D) :
    ∀ (n : Nat) (m : Mem) (d x : Nat),
      silLoopW w sil D m d n x =
        if Hit d D w n x then byteOf sil ((x - d) % D) else m x := by
  have hD : 0 < D := by omega
  intro n
  induction n with
  | zero =>
    intro m d x
    rw [silLoopW]
    rw [if_neg]
    rintro ⟨-, h2, -⟩
    exact Nat.not_lt_zero _ h2
  | succ k ih =>
    intro m d x
    rw [silLoopW, ih]
    by_cases h1 : Hit (d + D) D w k x
    · obtain ⟨ha, hb, hc⟩ := h1
      have hsub : x - d = (x - (d + D)) + D := by omega
      have hdiv : (x - d) / D = (x - (d + D)) / D + 1 := by
        rw [hsub, Nat.add_div_right _ hD]
      have hmod : (x - d) % D = (x - (d + D)) % D := by
        rw [hsub, Nat.add_mod_right]
      rw [if_pos ⟨ha, hb, hc⟩, if_pos ⟨by omega, by omega, by rw [hmod]; exact hc⟩]
      rw [hmod]
    · rw [if_neg h1, writeLE_apply]
      by_cases h2 : d ≤ x ∧ x < d + w
      · have hlt : x - d < D := by omega
        rw [if_pos h2, if_pos ⟨h2.1, by rw [Nat.div_eq_of_lt hlt]; omega,
          by rw [Nat.mod_eq_of_lt hlt]; omega⟩]
        rw [Nat.mod_eq_of_lt hlt]
      · rw [if_neg h2, if_neg]
        rintro ⟨ha, hb, hc⟩
        by_cases h3 : x < d + D
        · have hlt : x - d < D := by omega
          rw [Nat.mod_eq_of_lt hlt] at hc
          exact h2 ⟨ha, by omega⟩
        · have hsub : x - d = (x - (d + D)) + D := by omega
          have hdiv : (x - d) / D = (x - (d + D)) / D + 1 := by
            rw [hsub, Nat.add_div_right _ hD]
          have hmod : (x - d) % D = (x - (d + D)) % D := by
            rw [hsub, Nat.add_mod_right]
          exact h1 ⟨by omega, by omega, by rw [← hmod]; exact hc⟩

theorem Hit_shift {p D w n y : Nat} (hD : 0 < D) (h : Hit (p + D) D w n y) :
    Hit p D w (n + 1) y := by
  obtain ⟨ha, hb, hc⟩ := h
  have hsub : y - p = (y - (p + D)) + D := by omega
  have hdiv : (y - p) / D = (y - (p + D)) / D + 1 := by
    rw [hsub, Nat.add_div_right _ hD]
  have hmod : (y - p) % D = (y - (p + D)) % D := by
    rw [hsub, Nat.add_mod_right]
  exact ⟨by omega, by omega, by rw [hmod]; exact hc⟩

theorem Hit_first {d D w n y : Nat} (hwD : w ≤ D) (h1 : d ≤ y) (h2 : y < d + w) :
    Hit d D w (n + 1) y := by
  have hlt : y - d < D := by omega
  exact ⟨h1, by rw [Nat.div_eq_of_lt hlt]; omega, by rw [Nat.mod_eq_of_lt hlt]; omega⟩

theorem Hit_cases {d D w n y : Nat} (hD : 0 < D) (h : Hit d D w (n + 1) y) :
    (d ≤ y ∧ y < d + w) ∨ Hit (d + D) D w n y := by
  obtain ⟨ha, hb, hc⟩ := h
  by_cases h3 : y < d + D
  · left
    have hlt : y - d < D := by omega
    rw [Nat.mod_eq_of_lt hlt] at hc
    exact ⟨ha, by omega⟩
  · right
    have hsub : y - d = (y - (d + D)) + D := by omega
    have hdiv : (y - d) / D = (y - (d + D)) / D + 1 := by
      rw [hsub, Nat.add_div_right _ hD]
    have hmod : (y - d) % D = (y - (d + D)) % D := by
      rw [hsub, Nat.add_mod_right]
    exact ⟨by omega, by omega, by rw [← hmod]; exact hc⟩

theorem Hit_iff_exists {d D w n x : Nat} (hw : 0 < w) (hwD : w ≤ D) :
    Hit d D w n x ↔ ∃ j, j < n ∧ ∃ u, u < w ∧ x = d + D * j + u := by
  have hD : 0 < D := by omega
  constructor
  · rintro ⟨ha, hb, hc⟩
    refine ⟨(x - d) / D, hb, (x - d) % D, hc, ?_⟩
    have := Nat.div_add_mod (x - d) D
    omega
  · rintro ⟨j, hj, u, hu, rfl⟩
    have harg : d + D * j + u - d = D * j + u := by omega
    refine ⟨by omega, ?_, ?_⟩
    · rw [harg, Nat.mul_add_div hD, Nat.div_eq_of_lt (by omega)]
      omega
    · rw [harg, Nat.mul_add_mod, Nat.mod_eq_of_lt (by omega)]
      omega

/-- The copy loop with equal source and destination strides, on disjoint
source and destination sample sets, moves each source byte to the
corresponding destination byte of the pre-call memory. -/
theorem cpLoopW_apply (w D : Nat) (hw : 0 < w) (hwD : w ≤ D) :
    ∀ (n : Nat) (m : Mem) (src dst : Nat),
      (∀ y, Hit src D w n y → ¬ Hit dst D w n y) →
      ∀ x, cpLoopW w D D m src dst n x =
        if Hit dst D w n x then m (src + (x - dst)) % 256 else m x := by
  have hD : 0 < D := by omega
  intro n
  induction n with
  | zero =>
    intro m src dst hdisj x
    rw [cpLoopW, if_neg (fun h => Nat.not_lt_zero _ h.2.1)]
  | succ k ih =>
    intro m src dst hdisj x
    rw [cpLoopW]
    have hdisj' : ∀ y, Hit (src + D) D w k y → ¬ Hit (dst + D) D w k y :=
      fun y hs hd => hdisj y (Hit_shift hD hs) (Hit_shift hD hd)
    rw [ih _ _ _ hdisj']
    by_cases h1 : Hit (dst + D) D w k x
    · rw [if_pos h1, if_pos (Hit_shift hD h1)]
      have hxd : src + D + (x - (dst + D)) = src + (x - dst) := by
        obtain ⟨ha, -, -⟩ := h1
        omega
      rw [hxd]
      have hsrcHit : Hit src D w (k + 1) (src + (x - dst)) := by
        obtain ⟨ha, hb, hc⟩ := h1
        have harg : src + (x - dst) - src = (x - (dst + D)) + D := by omega
        refine ⟨by omega, ?_, ?_⟩
        · rw [harg, Nat.add_div_right _ hD]
          omega
        · rw [harg, Nat.add_mod_right]
          exact hc
      have hnotdst : ¬ (dst ≤ src + (x - dst) ∧ src + (x - dst) < dst + w) := by
        intro hin
        exact hdisj _ hsrcHit (Hit_first hwD hin.1 hin.2)
      rw [writeLE_apply, if_neg hnotdst]
    · rw [if_neg h1, writeLE_apply]
      by_cases h2 : dst ≤ x ∧ x < dst + w
      · rw [if_pos h2, if_pos (Hit_first hwD h2.1 h2.2)]
        rw [readLE_byte w m src (x - dst) (by omega)]
      · rw [if_neg h2, if_neg (fun hh => ((Hit_cases hD hh).elim h2 h1))]

/-- The sample positions of the `chns` interleaved channels of a collapsed
run exactly tile the contiguous collapsed region. -/
theorem hit_union (W chns off frames b : Nat) (hW : 0 < W) (hch : 0 < chns) (x : Nat) :
    (∃ k, k < chns ∧ Hit (b + W * k + W * chns * off) (W * chns) W frames x) ↔
    (b + W * chns * off ≤ x ∧ x < b + W * chns * off + W * chns * frames) := by
  have hD : 0 < W * chns := Nat.mul_pos hW hch
  have hwD : W ≤ W * chns := Nat.le_mul_of_pos_right W hch
  constructor
  · rintro ⟨k, hk, hhit⟩
    obtain ⟨j, hj, u, hu, hx⟩ := (Hit_iff_exists hW hwD).mp hhit
    have e1 : W * (k + 1) = W * k + W := by ring
    have e2 : W * (k + 1) ≤ W * chns := Nat.mul_le_mul_left W (by omega)
    have e3 : W * chns * (j + 1) = W * chns * j + W * chns := by ring
    have e4 : W * chns * (j + 1) ≤ W * chns * frames :=
      Nat.mul_le_mul_left (W * chns) (by omega)
    omega
  · rintro ⟨hlo, hhi⟩
    set t := x - (b + W * chns * off) with ht
    have htlt : t < W * chns * frames := by omega
    set q := t / W with hq
    set u := t % W with hu
    have hqu : W * q + u = t := Nat.div_add_mod t W
    have huW : u < W := Nat.mod_lt _ hW
    have hqlt : q < chns * frames := by
      have : t < chns * frames * W := by
        have e : chns * frames * W = W * chns * frames := by ring
        omega
      exact Nat.div_lt_iff_lt_mul hW |>.mpr this
    set k := q % chns with hk
    set j := q / chns with hj
    have hkc : k < chns := Nat.mod_lt _ hch
    have hjq : chns * j + k = q := Nat.div_add_mod q chns
    have hjf : j < frames := by
      refine Nat.div_lt_iff_lt_mul hch |>.mpr ?_
      have e : frames * chns = chns * frames := by ring
      omega
    refine ⟨k, hkc, (Hit_iff_exists hW hwD).mpr ⟨j, hjf, u, huW, ?_⟩⟩
    have e6 : W * q = W * chns * j + W * k := by
      rw [← hjq]
      ring
    omega

/-- Within a channel hit, the within-sample byte index computed with the
channel stride agrees with the one computed in the collapsed region. -/
theorem hit_value (W chns off frames b k x : Nat) (hW : 0 < W) (hch : 0 < chns)
    (hhit : Hit (b + W * k + W * chns * off) (W * chns) W frames x) :
    (x - (b + W * k + W * chns * off)) % (W * chns) =
      (x - (b + W * chns * off)) % W := by
  have hD : 0 < W * chns := Nat.mul_pos hW hch
  have hwD : W ≤ W * chns := Nat.le_mul_of_pos_right W hch
  obtain ⟨j, hj, u, hu, hx⟩ := (Hit_iff_exists hW hwD).mp hhit
  have h1 : x - (b + W * k + W * chns * off) = W * chns * j + u := by omega
  have e5 : W * (k + chns * j) = W * k + W * chns * j := by ring
  have h2 : x - (b + W * chns * off) = W * (k + chns * j) + u := by omega
  rw [h1, h2, Nat.mul_add_mod, Nat.mul_add_mod, Nat.mod_eq_of_lt (by omega),
    Nat.mod_eq_of_lt (by omega)]

/-- The fast 64-bit word path followed by the scalar tail fills the whole
collapsed region with the (width-periodic) silence pattern. -/
theorem fastTail_apply (W : Nat) (hW : 0 < W) (hdvd : W ∣ 8) (sil : Nat)
    (hper8 : ∀ u < 8, byteOf sil u = byteOf sil (u % W))
    (dwords samples1 total : Nat) (htot : 8 * dwords + W * samples1 = W * total)
    (m : Mem) (dst x : Nat) :
    silLoopW W sil W (writeWords sil m dst dwords) (dst + 8 * dwords) samples1 x =
      if dst ≤ x ∧ x < dst + W * total then byteOf sil ((x - dst) % W) else m x := by
  obtain ⟨c8, hc8⟩ : W ∣ 8 * dwords := Dvd.dvd.mul_right hdvd dwords
  rw [silLoopW_apply W sil W hW le_rfl, writeWords_apply]
  by_cases h1 : Hit (dst + 8 * dwords) W W samples1 x
  · obtain ⟨ha, hb, hc⟩ := h1
    have hlt : x - (dst + 8 * dwords) < samples1 * W := (Nat.div_lt_iff_lt_mul hW).mp hb
    have e1 : samples1 * W = W * samples1 := by ring
    rw [if_pos ⟨ha, hb, hc⟩, if_pos (by omega)]
    have harg : x - dst = (x - (dst + 8 * dwords)) + W * c8 := by omega
    rw [harg, Nat.add_mul_mod_self_left]
  · rw [if_neg h1]
    by_cases h2 : dst ≤ x ∧ x < dst + 8 * dwords
    · rw [if_pos h2, if_pos (by omega)]
      rw [hper8 ((x - dst) % 8) (Nat.mod_lt _ (by omega))]
      congr 1
      exact Nat.mod_mod_of_dvd _ hdvd
    · rw [if_neg h2, if_neg]
      rintro ⟨hlo, hhi⟩
      have hge : dst + 8 * dwords ≤ x := by omega
      apply h1
      refine ⟨hge, ?_, Nat.mod_lt _ hW⟩
      have : x - (dst + 8 * dwords) < samples1 * W := by
        have e1 : samples1 * W = W * samples1 := by ring
        omega
      exact (Nat.div_lt_iff_lt_mul hW).mpr this

/-- Closed form of a collapsed (tightly packed) silence call: the fast word
path plus its scalar tail fill exactly the contiguous collapsed region. -/
theorem area_silence_collapsed_apply (f : Format) (hW4 : f.width ≠ .w4)
    (hper : silPeriodic f) (base f0 off' n' : Nat) (m : Mem) (x : Nat) :
    (snd_pcm_area_silence ⟨some base, f0, f.width.bits⟩ off' n' f m).2 x =
      if base + f0 / 8 + f.width.bits / 8 * off' ≤ x ∧
          x < base + f0 / 8 + f.width.bits / 8 * off' + f.width.bits / 8 * n'
      then byteOf f.silence64 ((x - (base + f0 / 8 + f.width.bits / 8 * off')) %
        (f.width.bits / 8))
      else m x := by
  obtain ⟨w, sil⟩ := f
  simp only [silPeriodic, Width.bits] at hper
  cases w
  case w4 => exact absurd rfl hW4
  case w8 =>
    simp only [snd_pcm_area_silence, snd_pcm_format_physical_width,
      snd_pcm_format_silence_64, snd_pcm_channel_area_addr, Width.bits, reduceIte]
    norm_num at hper ⊢
    have hdst : base + (f0 + 8 * off') / 8 = base + f0 / 8 + off' := by omega
    rw [hdst]
    have h := fastTail_apply 1 (by norm_num) (by norm_num) sil hper (n' * 8 / 64)
      (n' - n' * 8 / 64 * 64 / 8) n' (by omega) m (base + f0 / 8 + off') x
    simpa using h
  case w16 =>
    simp only [snd_pcm_area_silence, snd_pcm_format_physical_width,
      snd_pcm_format_silence_64, snd_pcm_channel_area_addr, Width.bits, reduceIte]
    norm_num at hper ⊢
    have hdst : base + (f0 + 16 * off') / 8 = base + f0 / 8 + 2 * off' := by omega
    rw [hdst]
    have h := fastTail_apply 2 (by norm_num) (by norm_num) sil hper (n' * 16 / 64)
      (n' - n' * 16 / 64 * 64 / 16) n' (by omega) m (base + f0 / 8 + 2 * off') x
    simpa using h
  case w32 =>
    simp only [snd_pcm_area_silence, snd_pcm_format_physical_width,
      snd_pcm_format_silence_64, snd_pcm_channel_area_addr, Width.bits, reduceIte]
    norm_num at hper ⊢
    have hdst : base + (f0 + 32 * off') / 8 = base + f0 / 8 + 4 * off' := by omega
    rw [hdst]
    have h := fastTail_apply 4 (by norm_num) (by norm_num) sil hper (n' * 32 / 64)
      (n' - n' * 32 / 64 * 64 / 32) n' (by omega) m (base + f0 / 8 + 4 * off') x
    simpa using h
  case w64 =>
    simp only [snd_pcm_area_silence, snd_pcm_format_physical_width,
      snd_pcm_format_silence_64, snd_pcm_channel_area_addr, Width.bits, reduceIte]
    norm_num at hper ⊢
    have hdst : base + (f0 + 64 * off') / 8 = base + f0 / 8 + 8 * off' := by omega
    rw [hdst]
    have h := fastTail_apply 8 (by norm_num) (by norm_num) sil hper (n' * 64 / 64)
      (n' - n' * 64 / 64 * 64 / 64) n' (by omega) m (base + f0 / 8 + 8 * off') x
    simpa using h

/-- Closed form of one per-channel silence call of a tightly interleaved run
(slow path, stride `chns` samples). -/
theorem area_silence_chn_apply (f : Format) (hW4 : f.width ≠ .w4)
    (base f0 chns off frames : Nat) (hch : 2 ≤ chns) (k : Nat) (m : Mem) (x : Nat) :
    (snd_pcm_area_silence ⟨some base, f0 + k * f.width.bits, chns * f.width.bits⟩
        off frames f m).2 x =
      if Hit (base + f0 / 8 + f.width.bits / 8 * k + f.width.bits / 8 * chns * off)
          (f.width.bits / 8 * chns) (f.width.bits / 8) frames x
      then byteOf f.silence64
        ((x - (base + f0 / 8 + f.width.bits / 8 * k + f.width.bits / 8 * chns * off)) %
          (f.width.bits / 8 * chns))
      else m x := by
  obtain ⟨w, sil⟩ := f
  cases w
  case w4 => exact absurd rfl hW4
  case w8 =>
    simp only [snd_pcm_area_silence, snd_pcm_format_physical_width,
      snd_pcm_format_silence_64, snd_pcm_channel_area_addr, Width.bits,
      if_neg (show ¬ chns * 8 = 8 by omega)]
    norm_num
    have e0 : chns * 8 * off = 8 * (chns * off) := by ring
    have hdst : base + (f0 + k * 8 + chns * 8 * off) / 8 =
        base + f0 / 8 + k + chns * off := by omega
    rw [hdst]
    exact silLoopW_apply 1 sil chns (by norm_num) (by omega) frames m
      (base + f0 / 8 + k + chns * off) x
  case w16 =>
    simp only [snd_pcm_area_silence, snd_pcm_format_physical_width,
      snd_pcm_format_silence_64, snd_pcm_channel_area_addr, Width.bits,
      if_neg (show ¬ chns * 16 = 16 by omega)]
    norm_num
    have e0 : chns * 16 * off = 8 * (2 * chns * off) := by ring
    have hdst : base + (f0 + k * 16 + chns * 16 * off) / 8 =
        base + f0 / 8 + 2 * k + 2 * chns * off := by omega
    have hstep : chns * 16 / 8 = 2 * chns := by omega
    rw [hdst, hstep]
    exact silLoopW_apply 2 sil (2 * chns) (by norm_num) (by omega) frames m
      (base + f0 / 8 + 2 * k + 2 * chns * off) x
  case w32 =>
    simp only [snd_pcm_area_silence, snd_pcm_format_physical_width,
      snd_pcm_format_silence_64, snd_pcm_channel_area_addr, Width.bits,
      if_neg (show ¬ chns * 32 = 32 by omega)]
    norm_num
    have e0 : chns * 32 * off = 8 * (4 * chns * off) := by ring
    have hdst : base + (f0 + k * 32 + chns * 32 * off) / 8 =
        base + f0 / 8 + 4 * k + 4 * chns * off := by omega
    have hstep : chns * 32 / 8 = 4 * chns := by omega
    rw [hdst, hstep]
    exact silLoopW_apply 4 sil (4 * chns) (by norm_num) (by omega) frames m
      (base + f0 / 8 + 4 * k + 4 * chns * off) x
  case w64 =>
    simp only [snd_pcm_area_silence, snd_pcm_format_physical_width,
      snd_pcm_format_silence_64, snd_pcm_channel_area_addr, Width.bits,
      if_neg (show ¬ chns * 64 = 64 by omega)]
    norm_num
    have e0 : chns * 64 * off = 8 * (8 * chns * off) := by ring
    have hdst : base + (f0 + k * 64 + chns * 64 * off) / 8 =
        base + f0 / 8 + 8 * k + 8 * chns * off := by omega
    have hstep : chns * 64 / 8 = 8 * chns := by omega
    rw [hdst, hstep]
    exact silLoopW_apply 8 sil (8 * chns) (by norm_num) (by omega) frames m
      (base + f0 / 8 + 8 * k + 8 * chns * off) x

theorem foldl_writer_out {α : Type} (g : α → Mem → Mem) (P : α → Nat → Prop)
    (hg2 : ∀ a m x, ¬ P a x → g a m x = m x) :
    ∀ (ks : List α) (m : Mem) (x : Nat), (∀ a ∈ ks, ¬ P a x) →
      (ks.foldl (fun mm a => g a mm) m) x = m x := by
  intro ks
  induction ks with
  | nil =>
    intro m x h
    rfl
  | cons a rest ih =>
    intro m x h
    simp only [List.foldl_cons]
    rw [ih _ _ (fun b hb => h b (List.mem_cons_of_mem a hb)),
      hg2 a m x (h a (List.mem_cons_self a rest))]

theorem foldl_writer_in {α : Type} (g : α → Mem → Mem) (P : α → Nat → Prop) (V : Nat → Nat)
    (hg1 : ∀ a m x, P a x → g a m x = V x)
    (hg2 : ∀ a m x, ¬ P a x → g a m x = m x) :
    ∀ (ks : List α) (m : Mem) (x : Nat), (∃ a ∈ ks, P a x) →
      (ks.foldl (fun mm a => g a mm) m) x = V x := by
  intro ks
  induction ks with
  | nil =>
    rintro m x ⟨a, ha, -⟩
    exact absurd ha (List.not_mem_nil a)
  | cons a rest ih =>
    intro m x h
    simp only [List.foldl_cons]
    by_cases h1 : ∃ b ∈ rest, P b x
    · exact ih _ _ h1
    · have hP : P a x := by
        rcases h with ⟨b, hb, hPb⟩
        rcases List.mem_cons.mp hb with rfl | hb'
        · exact hPb
        · exact absurd ⟨b, hb', hPb⟩ h1
      push_neg at h1
      rw [foldl_writer_out g P hg2 rest _ x h1, hg1 a m x hP]

theorem perChannelSilence_eq_foldl :
    ∀ (l : List ChannelArea) (off fr : Nat) (f : Format) (m : Mem),
    perChannelSilence l off fr f m =
      l.foldl (fun mm a => (snd_pcm_area_silence a off fr f mm).2) m := by
  intro l
  induction l with
  | nil =>
    intro off fr f m
    rfl
  | cons a rest ih =>
    intro off fr f m
    simp only [perChannelSilence, List.foldl_cons, ih]

theorem width_byte_pos (f : Format) (hW4 : f.width ≠ .w4) : 0 < f.width.bits / 8 := by
  rcases f with ⟨w, sil⟩
  cases w
  case w4 => exact absurd rfl hW4
  all_goals simp [Width.bits]

/-- Collapsing one tightly interleaved silence run is transparent: the single
wide call equals the per-channel calls. -/
theorem silence_group (f : Format) (hW4 : f.width ≠ .w4) (hper : silPeriodic f)
    (base f0 chns off frames : Nat) (hch : 2 ≤ chns) (m : Mem) :
    (snd_pcm_area_silence ⟨some base, f0, f.width.bits⟩ (off * chns) (frames * chns) f m).2 =
    perChannelSilence (groupAreas (some base) f0 f.width.bits chns) off frames f m := by
  have hWpos : 0 < f.width.bits / 8 := width_byte_pos f hW4
  funext x
  rw [perChannelSilence_eq_foldl, groupAreas, List.foldl_map]
  rw [area_silence_collapsed_apply f hW4 hper base f0 (off * chns) (frames * chns) m x]
  have e1 : f.width.bits / 8 * (off * chns) = f.width.bits / 8 * chns * off := by ring
  have e2 : f.width.bits / 8 * (frames * chns) = f.width.bits / 8 * chns * frames := by ring
  rw [e1, e2]
  by_cases hx : ∃ k, k < chns ∧
      Hit (base + f0 / 8 + f.width.bits / 8 * k + f.width.bits / 8 * chns * off)
        (f.width.bits / 8 * chns) (f.width.bits / 8) frames x
  · obtain ⟨k0, hk0, hhit0⟩ := hx
    rw [foldl_writer_in
        (fun k mm => (snd_pcm_area_silence
          ⟨some base, f0 + k * f.width.bits, chns * f.width.bits⟩ off frames f mm).2)
        (fun k y => Hit (base + f0 / 8 + f.width.bits / 8 * k + f.width.bits / 8 * chns * off)
          (f.width.bits / 8 * chns) (f.width.bits / 8) frames y)
        (fun y => byteOf f.silence64
          ((y - (base + f0 / 8 + f.width.bits / 8 * chns * off)) % (f.width.bits / 8)))
        ?_ ?_ (List.range chns) m x ⟨k0, List.mem_range.mpr hk0, hhit0⟩]
    · rw [if_pos]
      exact (hit_union (f.width.bits / 8) chns off frames (base + f0 / 8) hWpos
        (by omega) x).mp ⟨k0, hk0, hhit0⟩
    · intro k mm y hP
      beta_reduce
      rw [area_silence_chn_apply f hW4 base f0 chns off frames hch k mm y, if_pos hP]
      rw [hit_value (f.width.bits / 8) chns off frames (base + f0 / 8) k y hWpos
        (by omega) hP]
    · intro k mm y hP
      beta_reduce
      rw [area_silence_chn_apply f hW4 base f0 chns off frames hch k mm y, if_neg hP]
  · rw [foldl_writer_out
        (fun k mm => (snd_pcm_area_silence
          ⟨some base, f0 + k * f.width.bits, chns * f.width.bits⟩ off frames f mm).2)
        (fun k y => Hit (base + f0 / 8 + f.width.bits / 8 * k + f.width.bits / 8 * chns * off)
          (f.width.bits / 8 * chns) (f.width.bits / 8) frames y)
        ?_ (List.range chns) m x ?_]
    · rw [if_neg]
      intro hreg
      exact hx ((hit_union (f.width.bits / 8) chns off frames (base + f0 / 8) hWpos
        (by omega) x).mpr hreg)
    · intro k mm y hP
      beta_reduce
      rw [area_silence_chn_apply f hW4 base f0 chns off frames hch k mm y, if_neg hP]
    · intro k hk
      exact fun hP => hx ⟨k, List.mem_range.mp hk, hP⟩



theorem chnsRun_take : ∀ (rest : List ChannelArea) (addr0 : Option Nat) (step0 width pf : Nat),
    rest.take (chnsRun addr0 step0 width pf rest) =
      (List.range (chnsRun addr0 step0 width pf rest)).map
        (fun k => ⟨addr0, pf + (k + 1) * width, step0⟩) ∧
    chnsRun addr0 step0 width pf rest ≤ rest.length := by
  intro rest
  induction rest with
  | nil =>
    intro addr0 step0 width pf
    simp [chnsRun]
  | cons b rest' ih =>
    intro addr0 step0 width pf
    rw [chnsRun]
    split
    · rename_i hcond
      obtain ⟨ha, hs, hf⟩ := hcond
      obtain ⟨ih1, ih2⟩ := ih addr0 step0 width b.first
      constructor
      · rw [Nat.add_comm 1 (chnsRun addr0 step0 width b.first rest')]
        rw [List.take_succ_cons, List.range_succ_eq_map, List.map_cons, List.map_map]
        congr 1
        · rcases b with ⟨ba, bf, bs⟩
          simp only at ha hs hf
          simp [ha, hs, hf, one_mul]
        · rw [ih1]
          apply List.map_congr_left
          intro k hk
          simp only [Function.comp, ChannelArea.mk.injEq, Nat.succ_eq_add_one]
          refine ⟨trivial, ?_, trivial⟩
          rw [hf]
          ring
      · simp only [List.length_cons]
        omega
    · simp

theorem perChannelSilence_append : ∀ (l1 l2 : List ChannelArea) (off fr : Nat)
    (f : Format) (m : Mem),
    perChannelSilence (l1 ++ l2) off fr f m =
      perChannelSilence l2 off fr f (perChannelSilence l1 off fr f m) := by
  intro l1
  induction l1 with
  | nil =>
    intro l2 off fr f m
    rfl
  | cons a rest ih =>
    intro l2 off fr f m
    simp only [List.cons_append, perChannelSilence]
    exact ih l2 off fr f ((snd_pcm_area_silence a off fr f m).2)

theorem area_silence_fst (a : ChannelArea) (off n : Nat) (f : Format) (m : Mem) :
    (snd_pcm_area_silence a off n f m).1 = 0 := by
  rcases a with ⟨addr, af, st⟩
  rcases addr with _ | base <;> rcases f with ⟨w, sil⟩ <;> cases w <;> rfl

theorem perChannelSilence_none : ∀ (l : List ChannelArea), (∀ a ∈ l, a.addr = none) →
    ∀ (off fr : Nat) (f : Format) (m : Mem), perChannelSilence l off fr f m = m := by
  intro l
  induction l with
  | nil =>
    intro h off fr f m
    rfl
  | cons a rest ih =>
    intro h off fr f m
    have ha := h a (List.mem_cons_self a rest)
    rcases a with ⟨addr, af, st⟩
    simp only at ha
    subst ha
    simp only [perChannelSilence]
    rw [ih (fun b hb => h b (List.mem_cons_of_mem _ hb))]
    rfl

theorem cons_take_group (aa : Option Nat) (af as : Nat) (rest : List ChannelArea)
    (width : Nat) (hstep : as = (1 + chnsRun aa as width af rest) * width) :
    (⟨aa, af, as⟩ : ChannelArea) :: rest.take (chnsRun aa as width af rest) =
      groupAreas aa af width (1 + chnsRun aa as width af rest) := by
  obtain ⟨h1, -⟩ := chnsRun_take rest aa as width af
  rw [groupAreas, Nat.add_comm 1 (chnsRun aa as width af rest),
    List.range_succ_eq_map, List.map_cons, List.map_map, h1]
  congr 1
  · simp only [ChannelArea.mk.injEq, Nat.zero_mul, Nat.add_zero]
    refine ⟨trivial, trivial, ?_⟩
    have h2 := hstep
    rw [Nat.add_comm 1 (chnsRun aa as width af rest)] at h2
    exact h2
  · apply List.map_congr_left
    intro k hk
    simp only [Function.comp, ChannelArea.mk.injEq, Nat.succ_eq_add_one]
    refine ⟨trivial, by ring_nf, ?_⟩
    have h2 := hstep
    rw [Nat.add_comm 1 (chnsRun aa as width af rest)] at h2
    exact h2



theorem areas_silence_eq_perChannel (f : Format) (hW4 : f.width ≠ .w4)
    (hper : silPeriodic f) :
    ∀ (areas : List ChannelArea) (doff frames : Nat) (m : Mem),
      (snd_pcm_areas_silence areas doff frames f m).2 =
        perChannelSilence areas doff frames f m := by
  have H : ∀ (n : Nat) (areas : List ChannelArea), areas.length = n →
      ∀ (doff frames : Nat) (m : Mem),
        (snd_pcm_areas_silence areas doff frames f m).2 =
          perChannelSilence areas doff frames f m := by
    intro n
    induction n using Nat.strong_induction_on with
    | _ n ih =>
      intro areas hlen doff frames m
      match areas, hlen with
      | [], _ =>
        rw [snd_pcm_areas_silence]
        rfl
      | ⟨aa, af, as⟩ :: rest, hlen =>
        rw [snd_pcm_areas_silence]
        simp only [snd_pcm_format_physical_width]
        by_cases hcol : 1 < 1 + chnsRun aa as f.width.bits af rest ∧
            (1 + chnsRun aa as f.width.bits af rest) * f.width.bits = as
        · rw [if_pos hcol]
          rw [if_neg (by
            rw [area_silence_fst ⟨aa, af, f.width.bits⟩
              (doff * (1 + chnsRun aa as f.width.bits af rest))
              (frames * (1 + chnsRun aa as f.width.bits af rest)) f m]
            omega)]
          have hidx : 1 + chnsRun aa as f.width.bits af rest - 1 =
              chnsRun aa as f.width.bits af rest := by omega
          rw [hidx]
          have hcle := (chnsRun_take rest aa as f.width.bits af).2
          have hlen' : (rest.drop (chnsRun aa as f.width.bits af rest)).length < n := by
            rw [List.length_drop]
            simp only [List.length_cons] at hlen
            omega
          rw [ih _ hlen' _ rfl]
          have hgm : (snd_pcm_area_silence ⟨aa, af, f.width.bits⟩
              (doff * (1 + chnsRun aa as f.width.bits af rest))
              (frames * (1 + chnsRun aa as f.width.bits af rest)) f m).2 =
              perChannelSilence
                (groupAreas aa af f.width.bits (1 + chnsRun aa as f.width.bits af rest))
                doff frames f m := by
            rcases aa with _ | base
            · rw [perChannelSilence_none _ ?_ doff frames f m]
              · rfl
              · intro b hb
                simp only [groupAreas, List.mem_map, List.mem_range] at hb
                obtain ⟨k, -, rfl⟩ := hb
                rfl
            · exact silence_group f hW4 hper base af
                (1 + chnsRun (some base) as f.width.bits af rest) doff frames
                (by omega) m
          rw [hgm]
          have hsplit : ((⟨aa, af, as⟩ : ChannelArea) ::
              rest.take (chnsRun aa as f.width.bits af rest)) ++
                rest.drop (chnsRun aa as f.width.bits af rest) =
              (⟨aa, af, as⟩ : ChannelArea) :: rest := by
            rw [List.cons_append, List.take_append_drop]
          conv_rhs => rw [← hsplit]
          rw [perChannelSilence_append]
          rw [cons_take_group aa af as rest f.width.bits (by omega)]
        · rw [if_neg hcol]
          rw [if_neg (by
            rw [area_silence_fst ⟨aa, af, as⟩ doff frames f m]
            omega)]
          have hlen' : rest.length < n := by
            simp only [List.length_cons] at hlen
            omega
          rw [ih _ hlen' _ rfl]
          rfl
  intro areas doff frames m
  exact H areas.length areas rfl doff frames m

end AlsaPcm

namespace AlsaPcm

theorem width_eq_8_mul (f : Format) (hW4 : f.width ≠ .w4) :
    f.width.bits = 8 * (f.width.bits / 8) := by
  rcases f with ⟨w, sil⟩
  cases w
  case w4 => exact absurd rfl hW4
  all_goals norm_num [Width.bits]

theorem area_copy_collapsed_apply (f : Format) (hW4 : f.width ≠ .w4)
    (dbase sbase df0 sf0 doff' soff' n' : Nat) (m : Mem) (x : Nat) :
    (snd_pcm_area_copy ⟨some dbase, df0, f.width.bits⟩ doff'
        ⟨some sbase, sf0, f.width.bits⟩ soff' n' f m).2 x =
      if dbase + df0 / 8 + f.width.bits / 8 * doff' ≤ x ∧
          x < dbase + df0 / 8 + f.width.bits / 8 * doff' + f.width.bits / 8 * n'
      then m (sbase + sf0 / 8 + f.width.bits / 8 * soff' +
        (x - (dbase + df0 / 8 + f.width.bits / 8 * doff'))) % 256
      else m x := by
  obtain ⟨w, sil⟩ := f
  cases w
  case w4 => exact absurd rfl hW4
  case w8 =>
    simp only [snd_pcm_area_copy, snd_pcm_format_physical_width,
      snd_pcm_channel_area_addr, Width.bits, reduceIte]
    norm_num
    rw [cpLoopW]
    have hd : dbase + (df0 + 8 * doff') / 8 = dbase + df0 / 8 + doff' := by omega
    have hs : sbase + (sf0 + 8 * soff') / 8 = sbase + sf0 / 8 + soff' := by omega
    rw [hd, hs, memcpy]
  case w16 =>
    simp only [snd_pcm_area_copy, snd_pcm_format_physical_width,
      snd_pcm_channel_area_addr, Width.bits, reduceIte]
    norm_num
    have hs1 : n' - n' * 16 / 8 * 8 / 16 = 0 := by omega
    rw [hs1, cpLoopW]
    have hd : dbase + (df0 + 16 * doff') / 8 = dbase + df0 / 8 + 2 * doff' := by omega
    have hs : sbase + (sf0 + 16 * soff') / 8 = sbase + sf0 / 8 + 2 * soff' := by omega
    have hb : n' * 16 / 8 = 2 * n' := by omega
    rw [hd, hs, hb, memcpy]
  case w32 =>
    simp only [snd_pcm_area_copy, snd_pcm_format_physical_width,
      snd_pcm_channel_area_addr, Width.bits, reduceIte]
    norm_num
    have hs1 : n' - n' * 32 / 8 * 8 / 32 = 0 := by omega
    rw [hs1, cpLoopW]
    have hd : dbase + (df0 + 32 * doff') / 8 = dbase + df0 / 8 + 4 * doff' := by omega
    have hs : sbase + (sf0 + 32 * soff') / 8 = sbase + sf0 / 8 + 4 * soff' := by omega
    have hb : n' * 32 / 8 = 4 * n' := by omega
    rw [hd, hs, hb, memcpy]
  case w64 =>
    simp only [snd_pcm_area_copy, snd_pcm_format_physical_width,
      snd_pcm_channel_area_addr, Width.bits, reduceIte]
    norm_num
    have hs1 : n' - n' * 64 / 8 * 8 / 64 = 0 := by omega
    rw [hs1, cpLoopW]
    have hd : dbase + (df0 + 64 * doff') / 8 = dbase + df0 / 8 + 8 * doff' := by omega
    have hs : sbase + (sf0 + 64 * soff') / 8 = sbase + sf0 / 8 + 8 * soff' := by omega
    have hb : n' * 64 / 8 = 8 * n' := by omega
    rw [hd, hs, hb, memcpy]

end AlsaPcm

namespace AlsaPcm

theorem area_copy_chn_apply (f : Format) (hW4 : f.width ≠ .w4)
    (dbase sbase df0 sf0 chns doff soff frames : Nat) (hch : 2 ≤ chns) (k : Nat)
    (hdisj : ∀ y,
      Hit (sbase + sf0 / 8 + f.width.bits / 8 * k + f.width.bits / 8 * chns * soff)
        (f.width.bits / 8 * chns) (f.width.bits / 8) frames y →
      ¬ Hit (dbase + df0 / 8 + f.width.bits / 8 * k + f.width.bits / 8 * chns * doff)
        (f.width.bits / 8 * chns) (f.width.bits / 8) frames y)
    (m : Mem) (x : Nat) :
    (snd_pcm_area_copy ⟨some dbase, df0 + k * f.width.bits, chns * f.width.bits⟩ doff
        ⟨some sbase, sf0 + k * f.width.bits, chns * f.width.bits⟩ soff frames f m).2 x =
      if Hit (dbase + df0 / 8 + f.width.bits / 8 * k + f.width.bits / 8 * chns * doff)
          (f.width.bits / 8 * chns) (f.width.bits / 8) frames x
      then m (sbase + sf0 / 8 + f.width.bits / 8 * k + f.width.bits / 8 * chns * soff +
        (x - (dbase + df0 / 8 + f.width.bits / 8 * k + f.width.bits / 8 * chns * doff))) % 256
      else m x := by
  obtain ⟨w, sil⟩ := f
  cases w
  case w4 => exact absurd rfl hW4
  case w8 =>
    simp only [snd_pcm_area_copy, snd_pcm_format_physical_width,
      snd_pcm_channel_area_addr, Width.bits,
      if_neg (show ¬ (chns * 8 = 8 ∧ chns * 8 = 8) by omega)] at hdisj ⊢
    norm_num at hdisj ⊢
    have e0 : chns * 8 * doff = 8 * (chns * doff) := by ring
    have e1 : chns * 8 * soff = 8 * (chns * soff) := by ring
    have hd : dbase + (df0 + k * 8 + chns * 8 * doff) / 8 =
        dbase + df0 / 8 + k + chns * doff := by omega
    have hs : sbase + (sf0 + k * 8 + chns * 8 * soff) / 8 =
        sbase + sf0 / 8 + k + chns * soff := by omega
    rw [hd, hs]
    exact cpLoopW_apply 1 chns (by norm_num) (by omega) frames m
      (sbase + sf0 / 8 + k + chns * soff) (dbase + df0 / 8 + k + chns * doff) hdisj x
  case w16 =>
    simp only [snd_pcm_area_copy, snd_pcm_format_physical_width,
      snd_pcm_channel_area_addr, Width.bits,
      if_neg (show ¬ (chns * 16 = 16 ∧ chns * 16 = 16) by omega)] at hdisj ⊢
    norm_num at hdisj ⊢
    have e0 : chns * 16 * doff = 8 * (2 * chns * doff) := by ring
    have e1 : chns * 16 * soff = 8 * (2 * chns * soff) := by ring
    have hd : dbase + (df0 + k * 16 + chns * 16 * doff) / 8 =
        dbase + df0 / 8 + 2 * k + 2 * chns * doff := by omega
    have hs : sbase + (sf0 + k * 16 + chns * 16 * soff) / 8 =
        sbase + sf0 / 8 + 2 * k + 2 * chns * soff := by omega
    have hstep : chns * 16 / 8 = 2 * chns := by omega
    rw [hd, hs, hstep]
    exact cpLoopW_apply 2 (2 * chns) (by norm_num) (by omega) frames m
      (sbase + sf0 / 8 + 2 * k + 2 * chns * soff) (dbase + df0 / 8 + 2 * k + 2 * chns * doff)
      hdisj x
  case w32 =>
    simp only [snd_pcm_area_copy, snd_pcm_format_physical_width,
      snd_pcm_channel_area_addr, Width.bits,
      if_neg (show ¬ (chns * 32 = 32 ∧ chns * 32 = 32) by omega)] at hdisj ⊢
    norm_num at hdisj ⊢
    have e0 : chns * 32 * doff = 8 * (4 * chns * doff) := by ring
    have e1 : chns * 32 * soff = 8 * (4 * chns * soff) := by ring
    have hd : dbase + (df0 + k * 32 + chns * 32 * doff) / 8 =
        dbase + df0 / 8 + 4 * k + 4 * chns * doff := by omega
    have hs : sbase + (sf0 + k * 32 + chns * 32 * soff) / 8 =
        sbase + sf0 / 8 + 4 * k + 4 * chns * soff := by omega
    have hstep : chns * 32 / 8 = 4 * chns := by omega
    rw [hd, hs, hstep]
    exact cpLoopW_apply 4 (4 * chns) (by norm_num) (by omega) frames m
      (sbase + sf0 / 8 + 4 * k + 4 * chns * soff) (dbase + df0 / 8 + 4 * k + 4 * chns * doff)
      hdisj x
  case w64 =>
    simp only [snd_pcm_area_copy, snd_pcm_format_physical_width,
      snd_pcm_channel_area_addr, Width.bits,
      if_neg (show ¬ (chns * 64 = 64 ∧ chns * 64 = 64) by omega)] at hdisj ⊢
    norm_num at hdisj ⊢
    have e0 : chns * 64 * doff = 8 * (8 * chns * doff) := by ring
    have e1 : chns * 64 * soff = 8 * (8 * chns * soff) := by ring
    have hd : dbase + (df0 + k * 64 + chns * 64 * doff) / 8 =
        dbase + df0 / 8 + 8 * k + 8 * chns * doff := by omega
    have hs : sbase + (sf0 + k * 64 + chns * 64 * soff) / 8 =
        sbase + sf0 / 8 + 8 * k + 8 * chns * soff := by omega
    have hstep : chns * 64 / 8 = 8 * chns := by omega
    rw [hd, hs, hstep]
    exact cpLoopW_apply 8 (8 * chns) (by norm_num) (by omega) frames m
      (sbase + sf0 / 8 + 8 * k + 8 * chns * soff) (dbase + df0 / 8 + 8 * k + 8 * chns * doff)
      hdisj x

end AlsaPcm

namespace AlsaPcm

theorem foldl_writer_src_out {α : Type} (g : α → Mem → Mem) (P : α → Nat → Prop)
    (Src : Nat → Prop) (m0 : Mem) :
    ∀ (ks : List α),
      (∀ a ∈ ks, ∀ (m : Mem) x, (∀ y, Src y → m y = m0 y) → ¬ P a x → g a m x = m x) →
      (∀ a ∈ ks, ∀ x, P a x → ¬ Src x) →
      ∀ (m : Mem), (∀ y, Src y → m y = m0 y) →
      ∀ x, (∀ a ∈ ks, ¬ P a x) → (ks.foldl (fun mm a => g a mm) m) x = m x := by
  intro ks
  induction ks with
  | nil =>
    intro hg2 hd m hagree x h
    rfl
  | cons a rest ih =>
    intro hg2 hd m hagree x h
    simp only [List.foldl_cons]
    have hga := hg2 a (List.mem_cons_self a rest)
    have hda := hd a (List.mem_cons_self a rest)
    have hagree' : ∀ y, Src y → g a m y = m0 y := by
      intro y hy
      rw [hga m y hagree (fun hP => hda y hP hy), hagree y hy]
    rw [ih (fun b hb => hg2 b (List.mem_cons_of_mem a hb))
        (fun b hb => hd b (List.mem_cons_of_mem a hb)) (g a m) hagree' x
        (fun b hb => h b (List.mem_cons_of_mem a hb)),
      hga m x hagree (h a (List.mem_cons_self a rest))]

theorem foldl_writer_src_in {α : Type} (g : α → Mem → Mem) (P : α → Nat → Prop)
    (V : Nat → Nat) (Src : Nat → Prop) (m0 : Mem) :
    ∀ (ks : List α),
      (∀ a ∈ ks, ∀ (m : Mem) x, (∀ y, Src y → m y = m0 y) → P a x → g a m x = V x) →
      (∀ a ∈ ks, ∀ (m : Mem) x, (∀ y, Src y → m y = m0 y) → ¬ P a x → g a m x = m x) →
      (∀ a ∈ ks, ∀ x, P a x → ¬ Src x) →
      ∀ (m : Mem), (∀ y, Src y → m y = m0 y) →
      ∀ x, (∃ a ∈ ks, P a x) → (ks.foldl (fun mm a => g a mm) m) x = V x := by
  intro ks
  induction ks with
  | nil =>
    rintro hg1 hg2 hd m hagree x ⟨a, ha, -⟩
    exact absurd ha (List.not_mem_nil a)
  | cons a rest ih =>
    intro hg1 hg2 hd m hagree x h
    simp only [List.foldl_cons]
    have hga := hg2 a (List.mem_cons_self a rest)
    have hda := hd a (List.mem_cons_self a rest)
    have hagree' : ∀ y, Src y → g a m y = m0 y := by
      intro y hy
      rw [hga m y hagree (fun hP => hda y hP hy), hagree y hy]
    by_cases h1 : ∃ b ∈ rest, P b x
    · exact ih (fun b hb => hg1 b (List.mem_cons_of_mem a hb))
        (fun b hb => hg2 b (List.mem_cons_of_mem a hb))
        (fun b hb => hd b (List.mem_cons_of_mem a hb)) (g a m) hagree' x h1
    · have hP : P a x := by
        rcases h with ⟨b, hb, hPb⟩
        rcases List.mem_cons.mp hb with rfl | hb'
        · exact hPb
        · exact absurd ⟨b, hb', hPb⟩ h1
      push_neg at h1
      rw [foldl_writer_src_out g P Src m0 rest
          (fun b hb => hg2 b (List.mem_cons_of_mem a hb))
          (fun b hb => hd b (List.mem_cons_of_mem a hb)) (g a m) hagree' x h1,
        hg1 a (List.mem_cons_self a rest) m x hagree hP]

theorem hit_src_align (W chns doff soff db sb k x : Nat)
    (hle : db + W * k + W * chns * doff ≤ x) :
    sb + W * k + W * chns * soff + (x - (db + W * k + W * chns * doff)) =
      sb + W * chns * soff + (x - (db + W * chns * doff)) := by
  omega

theorem perChannelCopy_eq_foldl_pair :
    ∀ (ks : List Nat) (gd gs : Nat → ChannelArea) (doff soff fr : Nat) (f : Format) (m : Mem),
    perChannelCopy (ks.map gd) doff (ks.map gs) soff fr f m =
      ks.foldl (fun mm k => (snd_pcm_area_copy (gd k) doff (gs k) soff fr f mm).2) m := by
  intro ks
  induction ks with
  | nil =>
    intro gd gs doff soff fr f m
    rfl
  | cons a rest ih =>
    intro gd gs doff soff fr f m
    simp only [List.map_cons, perChannelCopy, List.foldl_cons]
    exact ih gd gs doff soff fr f _


theorem copy_group (f : Format) (hW4 : f.width ≠ .w4)
    (dbase sbase df0 sf0 chns doff soff frames : Nat) (hch : 2 ≤ chns)
    (hdisj : ∀ y,
      (dbase + df0 / 8 + f.width.bits / 8 * chns * doff ≤ y ∧
        y < dbase + df0 / 8 + f.width.bits / 8 * chns * doff +
          f.width.bits / 8 * chns * frames) →
      ¬ (sbase + sf0 / 8 + f.width.bits / 8 * chns * soff ≤ y ∧
        y < sbase + sf0 / 8 + f.width.bits / 8 * chns * soff +
          f.width.bits / 8 * chns * frames))
    (m : Mem) :
    (snd_pcm_area_copy ⟨some dbase, df0, f.width.bits⟩ (doff * chns)
        ⟨some sbase, sf0, f.width.bits⟩ (soff * chns) (frames * chns) f m).2 =
    perChannelCopy (groupAreas (some dbase) df0 f.width.bits chns) doff
      (groupAreas (some sbase) sf0 f.width.bits chns) soff frames f m := by
  have hWpos : 0 < f.width.bits / 8 := width_byte_pos f hW4
  have hchpos : 0 < chns := by omega
  funext x
  rw [groupAreas, groupAreas,
    perChannelCopy_eq_foldl_pair (List.range chns)
      (fun k => ⟨some dbase, df0 + k * f.width.bits, chns * f.width.bits⟩)
      (fun k => ⟨some sbase, sf0 + k * f.width.bits, chns * f.width.bits⟩)
      doff soff frames f m]
  rw [area_copy_collapsed_apply f hW4 dbase sbase df0 sf0 (doff * chns) (soff * chns)
    (frames * chns) m x]
  have e1 : f.width.bits / 8 * (doff * chns) = f.width.bits / 8 * chns * doff := by ring
  have e2 : f.width.bits / 8 * (soff * chns) = f.width.bits / 8 * chns * soff := by ring
  have e3 : f.width.bits / 8 * (frames * chns) = f.width.bits / 8 * chns * frames := by ring
  rw [e1, e2, e3]
  have hchd : ∀ k, k < chns → ∀ y,
      Hit (sbase + sf0 / 8 + f.width.bits / 8 * k + f.width.bits / 8 * chns * soff)
        (f.width.bits / 8 * chns) (f.width.bits / 8) frames y →
      ¬ Hit (dbase + df0 / 8 + f.width.bits / 8 * k + f.width.bits / 8 * chns * doff)
        (f.width.bits / 8 * chns) (f.width.bits / 8) frames y := by
    intro k hk y hsy hdy
    have hsreg := (hit_union (f.width.bits / 8) chns soff frames (sbase + sf0 / 8)
      hWpos hchpos y).mp ⟨k, hk, hsy⟩
    have hdreg := (hit_union (f.width.bits / 8) chns doff frames (dbase + df0 / 8)
      hWpos hchpos y).mp ⟨k, hk, hdy⟩
    exact hdisj y hdreg hsreg
  by_cases hx : ∃ k, k < chns ∧
      Hit (dbase + df0 / 8 + f.width.bits / 8 * k + f.width.bits / 8 * chns * doff)
        (f.width.bits / 8 * chns) (f.width.bits / 8) frames x
  · obtain ⟨k0, hk0, hhit0⟩ := hx
    rw [foldl_writer_src_in
        (fun k mm => (snd_pcm_area_copy
          ⟨some dbase, df0 + k * f.width.bits, chns * f.width.bits⟩ doff
          ⟨some sbase, sf0 + k * f.width.bits, chns * f.width.bits⟩ soff frames f mm).2)
        (fun k y => Hit (dbase + df0 / 8 + f.width.bits / 8 * k +
            f.width.bits / 8 * chns * doff)
          (f.width.bits / 8 * chns) (f.width.bits / 8) frames y)
        (fun y => m (sbase + sf0 / 8 + f.width.bits / 8 * chns * soff +
          (y - (dbase + df0 / 8 + f.width.bits / 8 * chns * doff))) % 256)
        (fun y => sbase + sf0 / 8 + f.width.bits / 8 * chns * soff ≤ y ∧
          y < sbase + sf0 / 8 + f.width.bits / 8 * chns * soff +
            f.width.bits / 8 * chns * frames)
        m (List.range chns) ?_ ?_ ?_ m (fun _ _ => rfl) x
        ⟨k0, List.mem_range.mpr hk0, hhit0⟩]
    · rw [if_pos]
      exact (hit_union (f.width.bits / 8) chns doff frames (dbase + df0 / 8) hWpos
        hchpos x).mp ⟨k0, hk0, hhit0⟩
    · intro k hk mm y hagree hP
      beta_reduce
      rw [area_copy_chn_apply f hW4 dbase sbase df0 sf0 chns doff soff frames hch k
        (hchd k (List.mem_range.mp hk)) mm y, if_pos hP]
      rw [hit_src_align (f.width.bits / 8) chns doff soff (dbase + df0 / 8)
        (sbase + sf0 / 8) k y hP.1]
      have hreg := (hit_union (f.width.bits / 8) chns doff frames (dbase + df0 / 8)
        hWpos hchpos y).mp ⟨k, List.mem_range.mp hk, hP⟩
      rw [hagree (sbase + sf0 / 8 + f.width.bits / 8 * chns * soff +
        (y - (dbase + df0 / 8 + f.width.bits / 8 * chns * doff))) (by omega)]
    · intro k hk mm y hagree hP
      beta_reduce
      rw [area_copy_chn_apply f hW4 dbase sbase df0 sf0 chns doff soff frames hch k
        (hchd k (List.mem_range.mp hk)) mm y, if_neg hP]
    · intro k hk y hP
      intro hSrc
      have hreg := (hit_union (f.width.bits / 8) chns doff frames (dbase + df0 / 8)
        hWpos hchpos y).mp ⟨k, List.mem_range.mp hk, hP⟩
      exact hdisj y hreg hSrc
  · rw [foldl_writer_src_out
        (fun k mm => (snd_pcm_area_copy
          ⟨some dbase, df0 + k * f.width.bits, chns * f.width.bits⟩ doff
          ⟨some sbase, sf0 + k * f.width.bits, chns * f.width.bits⟩ soff frames f mm).2)
        (fun k y => Hit (dbase + df0 / 8 + f.width.bits / 8 * k +
            f.width.bits / 8 * chns * doff)
          (f.width.bits / 8 * chns) (f.width.bits / 8) frames y)
        (fun y => sbase + sf0 / 8 + f.width.bits / 8 * chns * soff ≤ y ∧
          y < sbase + sf0 / 8 + f.width.bits / 8 * chns * soff +
            f.width.bits / 8 * chns * frames)
        m (List.range chns) ?_ ?_ m (fun _ _ => rfl) x ?_]
    · rw [if_neg]
      intro hreg
      exact hx ((hit_union (f.width.bits / 8) chns doff frames (dbase + df0 / 8) hWpos
        hchpos x).mpr hreg)
    · intro k hk mm y hagree hP
      beta_reduce
      rw [area_copy_chn_apply f hW4 dbase sbase df0 sf0 chns doff soff frames hch k
        (hchd k (List.mem_range.mp hk)) mm y, if_neg hP]
    · intro k hk y hP
      intro hSrc
      have hreg := (hit_union (f.width.bits / 8) chns doff frames (dbase + df0 / 8)
        hWpos hchpos y).mp ⟨k, List.mem_range.mp hk, hP⟩
      exact hdisj y hreg hSrc
    · intro k hk
      exact fun hP => hx ⟨k, List.mem_range.mp hk, hP⟩


theorem cpChnsRun_take : ∀ (srest drest : List ChannelArea) (stepW width : Nat)
    (sAddr dAddr : Option Nat) (psf pdf : Nat),
    srest.take (cpChnsRun stepW width sAddr dAddr psf pdf srest drest) =
      (List.range (cpChnsRun stepW width sAddr dAddr psf pdf srest drest)).map
        (fun k => ⟨sAddr, psf + (k + 1) * width, stepW⟩) ∧
    drest.take (cpChnsRun stepW width sAddr dAddr psf pdf srest drest) =
      (List.range (cpChnsRun stepW width sAddr dAddr psf pdf srest drest)).map
        (fun k => ⟨dAddr, pdf + (k + 1) * width, stepW⟩) ∧
    cpChnsRun stepW width sAddr dAddr psf pdf srest drest ≤ srest.length ∧
    cpChnsRun stepW width sAddr dAddr psf pdf srest drest ≤ drest.length := by
  intro srest
  induction srest with
  | nil =>
    intro drest stepW width sAddr dAddr psf pdf
    simp [cpChnsRun]
  | cons sb srest' ih =>
    intro drest stepW width sAddr dAddr psf pdf
    match drest with
    | [] => simp [cpChnsRun]
    | db :: drest' =>
      rw [cpChnsRun]
      split
      · rename_i hcond
        obtain ⟨hss, hsa, hda, hsf, hdf, hds⟩ := hcond
        obtain ⟨ih1, ih2, ih3, ih4⟩ := ih drest' stepW width sAddr dAddr sb.first db.first
        refine ⟨?_, ?_, ?_, ?_⟩
        · rw [Nat.add_comm 1
            (cpChnsRun stepW width sAddr dAddr sb.first db.first srest' drest')]
          rw [List.take_succ_cons, List.range_succ_eq_map, List.map_cons, List.map_map]
          congr 1
          · rcases sb with ⟨sba, sbf, sbs⟩
            simp only at hss hsa hsf
            simp [hss, hsa, hsf, one_mul]
          · rw [ih1]
            apply List.map_congr_left
            intro k hk
            simp only [Function.comp, ChannelArea.mk.injEq, Nat.succ_eq_add_one]
            refine ⟨trivial, ?_, trivial⟩
            rw [hsf]
            ring
        · rw [Nat.add_comm 1
            (cpChnsRun stepW width sAddr dAddr sb.first db.first srest' drest')]
          rw [List.take_succ_cons, List.range_succ_eq_map, List.map_cons, List.map_map]
          congr 1
          · rcases db with ⟨dba, dbf, dbs⟩
            simp only at hds hda hdf
            simp [hds, hda, hdf, one_mul]
          · rw [ih2]
            apply List.map_congr_left
            intro k hk
            simp only [Function.comp, ChannelArea.mk.injEq, Nat.succ_eq_add_one]
            refine ⟨trivial, ?_, trivial⟩
            rw [hdf]
            ring
        · simp only [List.length_cons]
          omega
        · simp only [List.length_cons]
          omega
      · simp

theorem cons_map_group (addr : Option Nat) (f0 width c st1 st2 : Nat)
    (h1 : st1 = (1 + c) * width) (h2 : st2 = (1 + c) * width) :
    (⟨addr, f0, st1⟩ : ChannelArea) ::
        (List.range c).map (fun k => ⟨addr, f0 + (k + 1) * width, st2⟩) =
      groupAreas addr f0 width (1 + c) := by
  subst h1
  subst h2
  rw [groupAreas, Nat.add_comm 1 c, List.range_succ_eq_map, List.map_cons, List.map_map]
  congr 1
  simp only [ChannelArea.mk.injEq, Nat.zero_mul, Nat.add_zero]

theorem perChannelCopy_append : ∀ (l1 l1' : List ChannelArea), l1.length = l1'.length →
    ∀ (l2 l2' : List ChannelArea) (doff soff fr : Nat) (f : Format) (m : Mem),
    perChannelCopy (l1 ++ l2) doff (l1' ++ l2') soff fr f m =
      perChannelCopy l2 doff l2' soff fr f (perChannelCopy l1 doff l1' soff fr f m) := by
  intro l1
  induction l1 with
  | nil =>
    intro l1' hlen l2 l2' doff soff fr f m
    have h0 : l1' = [] := List.eq_nil_of_length_eq_zero hlen.symm
    subst h0
    rfl
  | cons a rest ih =>
    intro l1' hlen l2 l2' doff soff fr f m
    match l1' with
    | [] => simp at hlen
    | b :: rest' =>
      simp only [List.cons_append, perChannelCopy]
      exact ih rest' (by simp only [List.length_cons] at hlen; omega) l2 l2'
        doff soff fr f _

theorem perChannelCopy_src_none : ∀ (dl sl : List ChannelArea), dl.length = sl.length →
    (∀ a ∈ sl, a.addr = none) →
    ∀ (doff soff fr : Nat) (f : Format) (m : Mem),
    perChannelCopy dl doff sl soff fr f m = perChannelSilence dl doff fr f m := by
  intro dl
  induction dl with
  | nil =>
    intro sl hlen hnone doff soff fr f m
    rfl
  | cons d dr ih =>
    intro sl hlen hnone doff soff fr f m
    match sl with
    | [] => simp at hlen
    | s :: sr =>
      have hs := hnone s (List.mem_cons_self s sr)
      rcases s with ⟨sa, sf, ss⟩
      simp only at hs
      subst hs
      simp only [perChannelCopy, perChannelSilence]
      rw [show snd_pcm_area_copy d doff ⟨none, sf, ss⟩ soff fr f m =
        snd_pcm_area_silence d doff fr f m from rfl]
      exact ih sr (by simp only [List.length_cons] at hlen; omega)
        (fun b hb => hnone b (List.mem_cons_of_mem _ hb)) doff soff fr f _

theorem perChannelCopy_dst_none : ∀ (dl : List ChannelArea),
    (∀ a ∈ dl, a.addr = none) →
    ∀ (sl : List ChannelArea) (doff soff fr : Nat) (f : Format) (m : Mem),
    perChannelCopy dl doff sl soff fr f m = m := by
  intro dl
  induction dl with
  | nil =>
    intro hnone sl doff soff fr f m
    cases sl <;> rfl
  | cons d dr ih =>
    intro hnone sl doff soff fr f m
    have hd := hnone d (List.mem_cons_self d dr)
    match sl with
    | [] => rfl
    | s :: sr =>
      rcases d with ⟨da, df, ds⟩
      simp only at hd
      subst hd
      rcases s with ⟨sa, sf, ss⟩
      simp only [perChannelCopy]
      have hcp : (snd_pcm_area_copy ⟨none, df, ds⟩ doff ⟨sa, sf, ss⟩ soff fr f m).2 = m := by
        cases sa
        · rfl
        · rfl
      rw [hcp]
      exact ih (fun b hb => hnone b (List.mem_cons_of_mem _ hb)) sr doff soff fr f m

theorem inAreas_subset {l l' : List ChannelArea} (h : l' ⊆ l) (off n W x : Nat)
    (hx : inAreas l' off n W x) : inAreas l off n W x := by
  obtain ⟨a, ha, hi⟩ := hx
  exact ⟨a, h ha, hi⟩

theorem group_region_inAreas (f : Format) (hW4 : f.width ≠ .w4)
    (base f0 chns off frames : Nat) (hch : 0 < chns) (y : Nat)
    (hy : base + f0 / 8 + f.width.bits / 8 * chns * off ≤ y ∧
      y < base + f0 / 8 + f.width.bits / 8 * chns * off + f.width.bits / 8 * chns * frames) :
    inAreas (groupAreas (some base) f0 f.width.bits chns) off frames (f.width.bits / 8) y := by
  have hWpos : 0 < f.width.bits / 8 := width_byte_pos f hW4
  obtain ⟨k, hk, hhit⟩ := (hit_union (f.width.bits / 8) chns off frames (base + f0 / 8)
    hWpos hch y).mpr hy
  obtain ⟨j, hj, u, hu, hy'⟩ := (Hit_iff_exists hWpos
    (Nat.le_mul_of_pos_right _ hch)).mp hhit
  refine ⟨⟨some base, f0 + k * f.width.bits, chns * f.width.bits⟩, ?_, ?_⟩
  · simp only [groupAreas, List.mem_map, List.mem_range]
    exact ⟨k, hk, rfl⟩
  · simp only [inArea]
    refine ⟨j, hj, u, hu, ?_⟩
    have hw8 : f.width.bits = 8 * (f.width.bits / 8) := width_eq_8_mul f hW4
    have e : f0 + k * f.width.bits + chns * f.width.bits * (off + j) =
        f0 + 8 * (f.width.bits / 8 * k + f.width.bits / 8 * chns * off +
          f.width.bits / 8 * chns * j) := by
      conv_lhs => rw [hw8]
      ring
    rw [e]
    omega

theorem areas_copy_eq_perChannel (f : Format) (hW4 : f.width ≠ .w4)
    (hper : silPeriodic f) :
    ∀ (dsts srcs : List ChannelArea) (doff soff frames : Nat) (m : Mem),
      noOverlap dsts doff srcs soff frames (f.width.bits / 8) →
      (snd_pcm_areas_copy dsts doff srcs soff frames f m).2 =
        perChannelCopy dsts doff srcs soff frames f m := by
  have H : ∀ (n : Nat) (dsts : List ChannelArea), dsts.length = n →
      ∀ (srcs : List ChannelArea) (doff soff frames : Nat) (m : Mem),
        noOverlap dsts doff srcs soff frames (f.width.bits / 8) →
        (snd_pcm_areas_copy dsts doff srcs soff frames f m).2 =
          perChannelCopy dsts doff srcs soff frames f m := by
    intro n
    induction n using Nat.strong_induction_on with
    | _ n ih =>
      intro dsts hlen srcs doff soff frames m hno
      match dsts, hlen with
      | [], _ =>
        rw [snd_pcm_areas_copy]
        · rfl
        · intro da drest sa srest h1 h2
          exact List.noConfusion h1
      | ⟨daA, daF, daS⟩ :: drest, hlen =>
        rcases srcs with _ | ⟨⟨saA, saF, saS⟩, srest⟩
        · rw [snd_pcm_areas_copy]
          · rfl
          · intro da drest' sa srest h1 h2
            exact List.noConfusion h2
        · rw [snd_pcm_areas_copy]
          simp only [snd_pcm_format_physical_width]
          by_cases hds : daS = saS
          · rw [if_pos hds]
            by_cases hcol : 1 < 1 + cpChnsRun saS f.width.bits saA daA saF daF srest drest ∧
                (1 + cpChnsRun saS f.width.bits saA daA saF daF srest drest) * f.width.bits = saS
            · rw [if_pos hcol]
              have hidx : 1 + cpChnsRun saS f.width.bits saA daA saF daF srest drest - 1 = cpChnsRun saS f.width.bits saA daA saF daF srest drest := by omega
              rw [hidx]
              obtain ⟨ht1, ht2, ht3, ht4⟩ :=
                cpChnsRun_take srest drest saS f.width.bits saA daA saF daF
              have hlen' : (drest.drop (cpChnsRun saS f.width.bits saA daA saF daF srest drest)).length < n := by
                rw [List.length_drop]
                simp only [List.length_cons] at hlen
                omega
              have hnod : noOverlap (drest.drop (cpChnsRun saS f.width.bits saA daA saF daF srest drest)) doff
                  (srest.drop (cpChnsRun saS f.width.bits saA daA saF daF srest drest)) soff frames (f.width.bits / 8) := by
                intro x hx1 hx2
                exact hno x
                  (inAreas_subset
                    (fun b hb => List.mem_cons_of_mem _ (List.drop_subset _ _ hb))
                    _ _ _ _ hx1)
                  (inAreas_subset
                    (fun b hb => List.mem_cons_of_mem _ (List.drop_subset _ _ hb))
                    _ _ _ _ hx2)
              rw [ih _ hlen' _ rfl _ _ _ _ _ hnod]
              have h2 : saS = (1 + cpChnsRun saS f.width.bits saA daA saF daF srest drest) * f.width.bits := hcol.2.symm
              have h1 : daS = (1 + cpChnsRun saS f.width.bits saA daA saF daF srest drest) * f.width.bits := by
                rw [hds]
                exact h2
              have hgd : (⟨daA, daF, daS⟩ : ChannelArea) :: drest.take (cpChnsRun saS f.width.bits saA daA saF daF srest drest) =
                  groupAreas daA daF f.width.bits (1 + cpChnsRun saS f.width.bits saA daA saF daF srest drest) := by
                rw [ht2]
                exact cons_map_group daA daF f.width.bits (cpChnsRun saS f.width.bits saA daA saF daF srest drest) daS saS h1 h2
              have hgs : (⟨saA, saF, saS⟩ : ChannelArea) :: srest.take (cpChnsRun saS f.width.bits saA daA saF daF srest drest) =
                  groupAreas saA saF f.width.bits (1 + cpChnsRun saS f.width.bits saA daA saF daF srest drest) := by
                rw [ht1]
                exact cons_map_group saA saF f.width.bits (cpChnsRun saS f.width.bits saA daA saF daF srest drest) saS saS h2 h2
              have hgm : (snd_pcm_area_copy ⟨daA, daF, f.width.bits⟩
                  (doff * (1 + cpChnsRun saS f.width.bits saA daA saF daF srest drest)) ⟨saA, saF, f.width.bits⟩
                  (soff * (1 + cpChnsRun saS f.width.bits saA daA saF daF srest drest)) (frames * (1 + cpChnsRun saS f.width.bits saA daA saF daF srest drest)) f m).2 =
                  perChannelCopy (groupAreas daA daF f.width.bits (1 + cpChnsRun saS f.width.bits saA daA saF daF srest drest)) doff
                    (groupAreas saA saF f.width.bits (1 + cpChnsRun saS f.width.bits saA daA saF daF srest drest)) soff frames f m := by
                generalize hC : cpChnsRun saS f.width.bits saA daA saF daF srest drest = c0
                rw [hC] at hcol hgd hgs
                rcases saA with _ | sbase
                · rcases daA with _ | dbase
                  · rw [perChannelCopy_dst_none
                      (groupAreas none daF f.width.bits (1 + c0))
                      (by
                        intro b hb
                        simp only [groupAreas, List.mem_map, List.mem_range] at hb
                        obtain ⟨k, -, rfl⟩ := hb
                        rfl)
                      (groupAreas none saF f.width.bits (1 + c0))
                      doff soff frames f m]
                    rfl
                  · rw [show snd_pcm_area_copy ⟨some dbase, daF, f.width.bits⟩
                        (doff * (1 + c0)) ⟨none, saF, f.width.bits⟩
                        (soff * (1 + c0)) (frames * (1 + c0)) f m =
                        snd_pcm_area_silence ⟨some dbase, daF, f.width.bits⟩
                          (doff * (1 + c0)) (frames * (1 + c0)) f m from rfl]
                    rw [silence_group f hW4 hper dbase daF (1 + c0) doff frames
                      (by omega) m]
                    rw [perChannelCopy_src_none
                      (groupAreas (some dbase) daF f.width.bits (1 + c0))
                      (groupAreas none saF f.width.bits (1 + c0))
                      (by simp [groupAreas])
                      (by
                        intro b hb
                        simp only [groupAreas, List.mem_map, List.mem_range] at hb
                        obtain ⟨k, -, rfl⟩ := hb
                        rfl)
                      doff soff frames f m]
                · rcases daA with _ | dbase
                  · rw [perChannelCopy_dst_none
                      (groupAreas none daF f.width.bits (1 + c0))
                      (by
                        intro b hb
                        simp only [groupAreas, List.mem_map, List.mem_range] at hb
                        obtain ⟨k, -, rfl⟩ := hb
                        rfl)
                      (groupAreas (some sbase) saF f.width.bits (1 + c0))
                      doff soff frames f m]
                    rfl
                  · have hsubd : groupAreas (some dbase) daF f.width.bits (1 + c0) ⊆
                        (⟨some dbase, daF, daS⟩ : ChannelArea) :: drest := by
                      rw [← hgd]
                      intro b hb
                      rcases List.mem_cons.mp hb with rfl | hb'
                      · exact List.mem_cons_self _ _
                      · exact List.mem_cons_of_mem _ (List.take_subset _ _ hb')
                    have hsubs : groupAreas (some sbase) saF f.width.bits (1 + c0) ⊆
                        (⟨some sbase, saF, saS⟩ : ChannelArea) :: srest := by
                      rw [← hgs]
                      intro b hb
                      rcases List.mem_cons.mp hb with rfl | hb'
                      · exact List.mem_cons_self _ _
                      · exact List.mem_cons_of_mem _ (List.take_subset _ _ hb')
                    exact copy_group f hW4 dbase sbase daF saF (1 + c0)
                      doff soff frames (by omega)
                      (fun y hyd hys => hno y
                        (inAreas_subset hsubd _ _ _ _
                          (group_region_inAreas f hW4 dbase daF (1 + c0)
                            doff frames (by omega) y hyd))
                        (inAreas_subset hsubs _ _ _ _
                          (group_region_inAreas f hW4 sbase saF (1 + c0)
                            soff frames (by omega) y hys))) m
              rw [hgm]
              have hsplit_d : ((⟨daA, daF, daS⟩ : ChannelArea) ::
                  drest.take (cpChnsRun saS f.width.bits saA daA saF daF srest drest)) ++ drest.drop (cpChnsRun saS f.width.bits saA daA saF daF srest drest) =
                  (⟨daA, daF, daS⟩ : ChannelArea) :: drest := by
                rw [List.cons_append, List.take_append_drop]
              have hsplit_s : ((⟨saA, saF, saS⟩ : ChannelArea) ::
                  srest.take (cpChnsRun saS f.width.bits saA daA saF daF srest drest)) ++ srest.drop (cpChnsRun saS f.width.bits saA daA saF daF srest drest) =
                  (⟨saA, saF, saS⟩ : ChannelArea) :: srest := by
                rw [List.cons_append, List.take_append_drop]
              conv_rhs => rw [← hsplit_d, ← hsplit_s]
              rw [perChannelCopy_append ((⟨daA, daF, daS⟩ : ChannelArea) ::
                  drest.take (cpChnsRun saS f.width.bits saA daA saF daF srest drest))
                ((⟨saA, saF, saS⟩ : ChannelArea) :: srest.take (cpChnsRun saS f.width.bits saA daA saF daF srest drest))
                (by
                  rw [ht1, ht2]
                  simp [List.length_cons, List.length_map, List.length_range])
                _ _ doff soff frames f m]
              rw [hgd, hgs]
            · rw [if_neg hcol]
              have hlen' : drest.length < n := by
                simp only [List.length_cons] at hlen
                omega
              have hno' : noOverlap drest doff srest soff frames
                  (f.width.bits / 8) := by
                intro x hx1 hx2
                exact hno x
                  (inAreas_subset (fun b hb => List.mem_cons_of_mem _ hb) _ _ _ _ hx1)
                  (inAreas_subset (fun b hb => List.mem_cons_of_mem _ hb) _ _ _ _ hx2)
              rw [ih _ hlen' _ rfl _ _ _ _ _ hno']
              rfl
          · rw [if_neg hds]
            rw [if_neg (show ¬(1 < 0 ∧ 0 * f.width.bits = saS) from
              fun h => absurd h.1 (by omega))]
            have hlen' : drest.length < n := by
              simp only [List.length_cons] at hlen
              omega
            have hno' : noOverlap drest doff srest soff frames
                (f.width.bits / 8) := by
              intro x hx1 hx2
              exact hno x
                (inAreas_subset (fun b hb => List.mem_cons_of_mem _ hb) _ _ _ _ hx1)
                (inAreas_subset (fun b hb => List.mem_cons_of_mem _ hb) _ _ _ _ hx2)
            rw [ih _ hlen' _ rfl _ _ _ _ _ hno']
            rfl
  intro dsts srcs doff soff frames m hno
  exact H dsts.length dsts rfl srcs doff soff frames m hno


/-- C7: for every channel-area list, offsets, frame count and format of
whole-byte physical width with a width-periodic silence pattern, the
collapsing multi-area operations write exactly what the per-channel
single-area primitives write: silencing unconditionally, copying whenever no
destination byte of the transfer is also a source byte. -/
theorem areas_collapse_transparent (f : Format) (hW4 : f.width ≠ .w4)
    (hper : silPeriodic f) :
    (∀ (dsts : List ChannelArea) (doff frames : Nat) (m : Mem),
      (snd_pcm_areas_silence dsts doff frames f m).2 =
        perChannelSilence dsts doff frames f m) ∧
    (∀ (dsts srcs : List ChannelArea) (doff soff frames : Nat) (m : Mem),
      noOverlap dsts doff srcs soff frames (f.width.bits / 8) →
      (snd_pcm_areas_copy dsts doff srcs soff frames f m).2 =
        perChannelCopy dsts doff srcs soff frames f m) :=
  ⟨areas_silence_eq_perChannel f hW4 hper, areas_copy_eq_perChannel f hW4 hper⟩

theorem areas_collapse_transparent_witness :
    (fmt16.width ≠ .w4 ∧ silPeriodic fmt16 ∧
      noOverlap areas16 0 srcs16 0 2 (fmt16.width.bits / 8)) ∧
    (snd_pcm_areas_silence areas16 0 2 fmt16 memAB).2 =
      perChannelSilence areas16 0 2 fmt16 memAB ∧
    (snd_pcm_areas_copy areas16 0 srcs16 0 2 fmt16 memAB).2 =
      perChannelCopy areas16 0 srcs16 0 2 fmt16 memAB := by
  have hW4 : fmt16.width ≠ .w4 := by decide
  have hper : silPeriodic fmt16 := by
    intro u hu
    interval_cases u <;> rfl
  have hno : noOverlap areas16 0 srcs16 0 2 (fmt16.width.bits / 8) := by
    intro x hx1 hx2
    obtain ⟨a, ha, hi⟩ := hx1
    obtain ⟨b, hb, hj⟩ := hx2
    simp only [areas16, List.mem_cons, List.not_mem_nil, or_false] at ha
    simp only [srcs16, List.mem_cons, List.not_mem_nil, or_false] at hb
    have hxlt : x < 100 := by
      rcases ha with rfl | rfl <;>
        · simp only [inArea, fmt16, Width.bits] at hi
          obtain ⟨i, hilt, u, hult, rfl⟩ := hi
          omega
    have hxge : 100 ≤ x := by
      rcases hb with rfl | rfl <;>
        · simp only [inArea, fmt16, Width.bits] at hj
          obtain ⟨i, hilt, u, hult, rfl⟩ := hj
          omega
    omega
  exact ⟨⟨hW4, hper, hno⟩,
    (areas_collapse_transparent fmt16 hW4 hper).1 areas16 0 2 memAB,
    (areas_collapse_transparent fmt16 hW4 hper).2 areas16 srcs16 0 0 2 memAB hno⟩

theorem areas_collapse_w4_counterexample :
    (snd_pcm_areas_silence areas4mis 0 8 fmt4 memAB).2 0 ≠
      perChannelSilence areas4mis 0 8 fmt4 memAB 0 := by
  have e1 : (snd_pcm_areas_silence areas4mis 0 8 fmt4 memAB).2 0 = 0 := by
    rw [show areas4mis = (⟨some 0, 1, 8⟩ : ChannelArea) ::
      [(⟨some 0, 5, 8⟩ : ChannelArea)] from rfl]
    rw [snd_pcm_areas_silence]
    norm_num [chnsRun, snd_pcm_format_physical_width, fmt4, Width.bits,
      area_silence_fst]
    rw [snd_pcm_areas_silence]
    rfl
  have e2 : perChannelSilence areas4mis 0 8 fmt4 memAB 0 = 160 := by rfl
  rw [e1, e2]
  omega

end AlsaPcm
